import Mathlib

/-!
# Devlog (`script.js`): a shallow embedding and its verified properties

The page script keeps an in-memory array of journal entries, mirrors it to one
`localStorage` record and to a `<ul>` of rows.  The embedding below follows
`script.js` statement by statement:

* JavaScript values that can come out of `JSON.parse` are the type `JSValue`;
  `undefined` (the result of reading an absent property) is `Option.none`.
  Numbers are mathematical integers (the script only ever creates integer
  ids, and a JavaScript number holds every integer below `2 ^ 53` exactly);
  strings are sequences of Unicode scalar values.
* `localStorage.setItem` always succeeds; the one key the script uses is a field
  of the state.
* The mutable globals and the part of the DOM the script touches form `State`.
* Every event handler is a function from `State` to an `Outcome`, which holds
  the state after the handler and the exception it threw, if any.
* The built-ins `JSON.parse`, `JSON.stringify` and `String.prototype.toLowerCase`
  are fields of a `Host`; general theorems hold for every host.  `refHost` is a
  reference implementation on which concrete runs are evaluated.
-/

namespace Devlog

/-! ## JavaScript values -/

/-- The values `JSON.parse` can produce. An object is the list of its own
properties in property order (keys are distinct in a well-formed object). -/
inductive JSValue where
  | null
  | bool (b : Bool)
  | num (n : Int)
  | str (s : String)
  | arr (xs : List JSValue)
  | obj (props : List (String × JSValue))

/-- The exceptions the script can raise and never catches. -/
inductive JSError where
  | syntaxError
  | typeError
deriving DecidableEq, Repr

namespace JSValue

/-- The test `v === null`. -/
def isNull : JSValue → Bool
  | null => true
  | _ => false

/-- The conversion `ToBoolean`: what `if (v)` and `!v` look at. -/
def truthy : JSValue → Bool
  | null => false
  | bool b => b
  | num n => n != 0
  | str s => s != ""
  | arr _ => true
  | obj _ => true

/-- The read `v.k` for a property name `k` that no built-in prototype defines
(the script reads `text`, `date` and `id`), on a value that is not `null`:
only an object can have it, as an own property. -/
def prop : JSValue → String → Option JSValue
  | obj props, k => props.lookup k
  | _, _ => none

/-- The read `v.k` as an expression: reading a property of `null` throws. -/
def getProp (v : JSValue) (k : String) : Except JSError (Option JSValue) :=
  if v.isNull then .error .typeError else .ok (v.prop k)

end JSValue

/-- The conversion `ToBoolean` on a possibly `undefined` value. -/
def truthyOpt : Option JSValue → Bool
  | none => false
  | some v => v.truthy

/-! ## Decimal numerals -/

/-- The character of a decimal digit. -/
def digitChar (d : Nat) : Char := Char.ofNat (48 + d)

/-- Most significant digit first, in front of `acc`. -/
def natDigitsAux : Nat → Nat → List Char → List Char
  | 0, _, acc => acc
  | fuel + 1, n, acc =>
    if n < 10 then digitChar n :: acc
    else natDigitsAux fuel (n / 10) (digitChar (n % 10) :: acc)

/-- The decimal numeral of a natural number. -/
def natDigits (n : Nat) : List Char := natDigitsAux (n + 1) n []

/-- The decimal numeral of an integer. -/
def intDigits (n : Int) : List Char :=
  if n < 0 then '-' :: natDigits n.natAbs else natDigits n.natAbs

/-- The conversion `Number::toString` on an integer (below `10 ^ 21` in
absolute value, where JavaScript writes all the digits). -/
def numberToString (n : Int) : String := String.mk (intDigits n)

/-- The method `Array.prototype.join` on strings. -/
def joinWith (sep : String) : List String → String
  | [] => ""
  | [a] => a
  | a :: b :: rest => a ++ sep ++ joinWith sep (b :: rest)

/-! ## `ToString`, as applied by a template literal -/

namespace JSValue

mutual
/-- The conversion `ToString`. An object converts through
`Object.prototype.toString` unless an own property `toString` (never callable
in parsed data) shadows it, in which case the conversion throws; an array
converts through `Array.prototype.join`. -/
def toStr : JSValue → Except JSError String
  | null => .ok "null"
  | bool b => .ok (if b then "true" else "false")
  | num n => .ok (numberToString n)
  | str s => .ok s
  | arr xs =>
    match elemStrs xs with
    | .ok parts => .ok (joinWith "," parts)
    | .error e => .error e
  | obj props =>
    if props.any (fun p => p.1 == "toString") then .error .typeError
    else .ok "[object Object]"
termination_by structural v => v
/-- The pieces `Array.prototype.join` glues: `null` gives the empty string. -/
def elemStrs : List JSValue → Except JSError (List String)
  | [] => .ok []
  | x :: xs =>
    match (if x.isNull then .ok "" else toStr x), elemStrs xs with
    | .ok a, .ok rest => .ok (a :: rest)
    | .error e, _ => .error e
    | .ok _, .error e => .error e
termination_by structural xs => xs
end

end JSValue

/-- The conversion `ToString` on a possibly `undefined` value. -/
def toStrOpt : Option JSValue → Except JSError String
  | none => .ok "undefined"
  | some v => v.toStr

/-! ## String built-ins with a closed definition -/

/-- The code points `String.prototype.trim` strips: WhiteSpace and
LineTerminator of ECMA-262. -/
def isWhiteSpace (c : Char) : Bool :=
  let n := c.toNat
  n == 0x09 || n == 0x0A || n == 0x0B || n == 0x0C || n == 0x0D || n == 0x20 ||
  n == 0xA0 || n == 0x1680 || (0x2000 ≤ n && n ≤ 0x200A) || n == 0x2028 ||
  n == 0x2029 || n == 0x202F || n == 0x205F || n == 0x3000 || n == 0xFEFF

/-- The characters of `s.trim()`. -/
def trimChars (cs : List Char) : List Char :=
  ((cs.dropWhile isWhiteSpace).reverse.dropWhile isWhiteSpace).reverse

/-- The method `String.prototype.trim`. -/
def trim (s : String) : String := String.mk (trimChars s.data)

/-- The test `text.includes(keyword)` on characters. -/
def includesChars : List Char → List Char → Bool
  | [], kw => kw.isEmpty
  | c :: text, kw => kw.isPrefixOf (c :: text) || includesChars text kw

/-- The method `String.prototype.includes`. -/
def includes (text keyword : String) : Bool := includesChars text.data keyword.data

/-! ## The page state -/

/-- The built-ins whose definition lies outside the script. `parse` answers
`none` where `JSON.parse` throws a `SyntaxError`; lower-casing the empty string
gives the empty string. -/
structure Host where
  parse : String → Option JSValue
  stringify : JSValue → String
  toLowerCase : String → String
  toLowerCase_empty : toLowerCase "" = ""

/-- An element of `entriesArray`: a value together with the identity of the heap
object that holds it (`===` on objects compares identities). -/
structure Cell where
  ref : Nat
  val : JSValue

/-- The inline `display` style of an element. -/
inductive Display where
  | unset
  | block
  | none
deriving DecidableEq, Repr

/-- One `<li>` of `#entries-list`: the `entryObj` its delete handler closes over,
the text of its `.entry-content` child and its `display` style. -/
structure Row where
  entryObj : Cell
  content : String
  display : Display

/-- The globals of the script and the DOM state it reads or writes.
`entryCount` is `none` while the script has not written the counter yet;
`nextRef` is the identity the next created object receives. -/
structure State where
  entriesArray : List Cell
  list : List Row
  storage : Option String
  textarea : String
  entryCount : Option String
  noResults : Display
  nextRef : Nat

/-- The result of running a piece of the script: the state it leaves and the
exception that ended it, if one did. -/
structure Outcome where
  state : State
  thrown : Option JSError

/-- The text of the counter for a given length. -/
def countText (n : Nat) : String :=
  "You have " ++ numberToString n ++ " entr" ++ (if n = 1 then "y" else "ies") ++ " logged."

/-- The function `updateEntryCount`. -/
def updateEntryCount (s : State) : State :=
  { s with entryCount := some (countText s.entriesArray.length) }

/-- The function `saveEntriesToStorage`. -/
def saveEntriesToStorage (host : Host) (s : State) : State :=
  { s with storage := some (host.stringify (.arr (s.entriesArray.map Cell.val))) }

/-- The guard `!entryObj || !entryObj.text` of `addEntry`. -/
def lacksText (v : JSValue) : Bool :=
  !v.truthy || !truthyOpt (v.prop "text")

/-- The template literal that formats an entry, with `date` converted first. -/
def formatEntry (v : JSValue) : Except JSError String :=
  match toStrOpt (v.prop "date") with
  | .error e => .error e
  | .ok date =>
    match toStrOpt (v.prop "text") with
    | .error e => .error e
    | .ok text => .ok ("[" ++ date ++ "] " ++ text)

/-- The function `addEntry`. An exception can only come from the template
literal, before anything was changed. -/
def addEntry (host : Host) (s : State) (entryObj : Cell) (skipSave : Bool) :
    Except JSError State :=
  if lacksText entryObj.val then .ok s
  else
    match formatEntry entryObj.val with
    | .error e => .error e
    | .ok content =>
      let s1 := { s with list := s.list ++ [⟨entryObj, content, Display.unset⟩] }
      let s2 :=
        if skipSave then s1
        else saveEntriesToStorage host { s1 with entriesArray := s1.entriesArray ++ [entryObj] }
      .ok (updateEntryCount { s2 with textarea := "" })

/-- The comparison `a === b` of two property reads; `sameObject` tells whether
both reads were made on one and the same heap object. -/
def strictEq (sameObject : Bool) : Option JSValue → Option JSValue → Bool
  | none, none => true
  | some .null, some .null => true
  | some (.bool a), some (.bool b) => a == b
  | some (.num a), some (.num b) => a == b
  | some (.str a), some (.str b) => a == b
  | some (.arr _), some (.arr _) => sameObject
  | some (.obj _), some (.obj _) => sameObject
  | _, _ => false

/-- The call `entriesArray.filter((entry) => entry.id !== entryObj.id)`. -/
def filterIds (entryObj : Cell) : List Cell → Except JSError (List Cell)
  | [] => .ok []
  | entry :: rest =>
    match entry.val.getProp "id", entryObj.val.getProp "id" with
    | .ok a, .ok b =>
      match filterIds entryObj rest with
      | .ok kept =>
        .ok (if strictEq (entry.ref == entryObj.ref) a b then kept else entry :: kept)
      | .error e => .error e
    | .error e, _ => .error e
    | .ok _, .error e => .error e

/-- The state before the script runs, for a given content of the storage key. -/
def init (storage : Option String) : State :=
  { entriesArray := [], list := [], storage := storage, textarea := "",
    entryCount := none, noResults := Display.unset, nextRef := 0 }

/-- The parsed elements with consecutive identities from `r` on. -/
def mkCells : Nat → List JSValue → List Cell
  | _, [] => []
  | r, v :: vs => ⟨r, v⟩ :: mkCells (r + 1) vs

/-- The state after the assignment `entriesArray = parsed`. -/
def assignParsed (storage : Option String) (parsed : List JSValue) : State :=
  { init storage with entriesArray := mkCells 0 parsed, nextRef := parsed.length }

/-- The loop `parsed.forEach((entryObj) => addEntry(entryObj, true))`. -/
def renderAll (host : Host) : State → List Cell → Outcome
  | s, [] => ⟨s, none⟩
  | s, c :: cs =>
    match addEntry host s c true with
    | .ok s1 => renderAll host s1 cs
    | .error e => ⟨s, some e⟩

/-- The top-level initialisation (lines 11 to 23). -/
def load (host : Host) (storage : Option String) : Outcome :=
  match storage with
  | none => ⟨init storage, none⟩
  | some savedEntries =>
    if savedEntries = "" then ⟨init storage, none⟩
    else
      match host.parse savedEntries with
      | none => ⟨init storage, some .syntaxError⟩
      | some (.arr parsed) =>
        let out := renderAll host (assignParsed storage parsed) (mkCells 0 parsed)
        match out.thrown with
        | none => ⟨updateEntryCount out.state, none⟩
        | some e => ⟨out.state, some e⟩
      | some _ => ⟨updateEntryCount (init storage), none⟩

/-- The object literal built by the submit handler. -/
def mkEntry (id : Int) (text date : String) : JSValue :=
  .obj [("id", .num id), ("text", .str text), ("date", .str date)]

/-- The submit handler of the form; `now` is `Date.now()` and `today` is
`new Date().toLocaleDateString("en-AU")`. The keydown handler of the textarea
only re-dispatches this event. -/
def submitHandler (host : Host) (s : State) (now : Int) (today : String) : Outcome :=
  let entryText := trim s.textarea
  if entryText = "" then ⟨s, none⟩
  else
    let s1 := { s with nextRef := s.nextRef + 1 }
    match addEntry host s1 ⟨s.nextRef, mkEntry now entryText today⟩ false with
    | .ok s2 => ⟨s2, none⟩
    | .error e => ⟨s1, some e⟩

/-- The click handler of the delete button of the `i`-th row, `confirmDelete`
being the answer to the prompt. A row that does not exist has no button. -/
def deleteHandler (host : Host) (s : State) (i : Nat) (confirmDelete : Bool) : Outcome :=
  match s.list[i]? with
  | none => ⟨s, none⟩
  | some li =>
    if !confirmDelete then ⟨s, none⟩
    else
      let s1 := { s with list := s.list.eraseIdx i }
      match filterIds li.entryObj s1.entriesArray with
      | .error e => ⟨s1, some e⟩
      | .ok kept =>
        ⟨updateEntryCount (saveEntriesToStorage host { s1 with entriesArray := kept }), none⟩

/-- Whether a row passes the search for the lower-cased keyword. -/
def isVisible (host : Host) (keyword : String) (li : Row) : Bool :=
  includes (host.toLowerCase li.content) keyword

/-- The input handler of the search box, `value` being `e.target.value`. -/
def searchHandler (host : Host) (s : State) (value : String) : State :=
  let keyword := host.toLowerCase value
  let anyVisible := s.list.any (isVisible host keyword)
  { s with
    list := s.list.map (fun li =>
      { li with display := if isVisible host keyword li then Display.block else Display.none })
    noResults := if anyVisible then Display.none else Display.block }

/-- What a click on the download button produces. -/
inductive Export where
  | alert (message : String)
  | file (download : String) (type : String) (text : String)
  | thrown (e : JSError)
deriving DecidableEq, Repr

/-- The filter `entry && entry.text && entry.date` of the export. -/
def exportable (v : JSValue) : Bool :=
  v.truthy && truthyOpt (v.prop "text") && truthyOpt (v.prop "date")

/-- The call `.map((entry) => ...)` of the export. -/
def exportLines : List JSValue → Except JSError (List String)
  | [] => .ok []
  | v :: vs =>
    match formatEntry v with
    | .error e => .error e
    | .ok line =>
      match exportLines vs with
      | .error e => .error e
      | .ok lines => .ok (line :: lines)

/-- The click handler of the download button. It leaves the state as it is. -/
def downloadHandler (s : State) : Export :=
  if s.entriesArray.length = 0 then .alert "No entries to download."
  else
    match exportLines ((s.entriesArray.map Cell.val).filter exportable) with
    | .error e => .thrown e
    | .ok lines => .file "dev-journal.txt" "text/plain" (joinWith "\n" lines)

/-- What the user and the clock can do to the page. -/
inductive Event where
  | input (value : String)
  | submit (now : Int) (today : String)
  | delete (i : Nat) (confirmDelete : Bool)
  | search (value : String)
  | download

/-- One event dispatched to its handler. -/
def handle (host : Host) (s : State) : Event → Outcome
  | .input value => ⟨{ s with textarea := value }, none⟩
  | .submit now today => submitHandler host s now today
  | .delete i confirmDelete => deleteHandler host s i confirmDelete
  | .search value => ⟨searchHandler host s value, none⟩
  | .download => ⟨s, none⟩

/-- The state after one event; an exception ends the handler, not the page. -/
def step (host : Host) (s : State) (ev : Event) : State := (handle host s ev).state

/-- The state after a sequence of events. -/
def runEvents (host : Host) (s : State) (evs : List Event) : State :=
  evs.foldl (step host) s

/-- The events on a page whose initialisation threw. The statements after the
throw never ran, so the form, the search box and the download button have no
listener; what exists are the delete listeners of the rows rendered before the
throw (line 60 runs inside `addEntry`), and the textarea still takes input. A
form submit without listener is the browser's own submission, which leaves the
page: the state of this page stays as it is then. -/
def runBroken (host : Host) : State → List Event → State
  | s, [] => s
  | s, .input value :: evs => runBroken host { s with textarea := value } evs
  | s, .delete i confirmDelete :: evs =>
    runBroken host (deleteHandler host s i confirmDelete).state evs
  | s, .search _ :: evs => runBroken host s evs
  | s, .download :: evs => runBroken host s evs
  | s, .submit _ _ :: _ => s

/-- The page after loading and a sequence of events. -/
def run (host : Host) (storage : Option String) (evs : List Event) : State :=
  match (load host storage).thrown with
  | none => runEvents host (load host storage).state evs
  | some _ => runBroken host (load host storage).state evs

/-! ## A reference host

`JSON.stringify` and `JSON.parse` on the values above, following ECMA-404 and
the property order of ordinary objects. Numerals with a fraction or an exponent
and escapes of lone surrogates denote values outside `JSValue`; the reference
parser answers `none` for them as well. -/

/-- The character of a hexadecimal digit, lower case. -/
def hexChar (d : Nat) : Char := if d < 10 then Char.ofNat (48 + d) else Char.ofNat (87 + d)

/-- The operation `QuoteJSONString` on one character. -/
def quoteChar (c : Char) : List Char :=
  let n := c.toNat
  if n = 34 then ['\\', '"']
  else if n = 92 then ['\\', '\\']
  else if n = 8 then ['\\', 'b']
  else if n = 12 then ['\\', 'f']
  else if n = 10 then ['\\', 'n']
  else if n = 13 then ['\\', 'r']
  else if n = 9 then ['\\', 't']
  else if n < 32 then ['\\', 'u', '0', '0', hexChar (n / 16), hexChar (n % 16)]
  else [c]

/-- The operation `QuoteJSONString`. -/
def quoteChars (cs : List Char) : List Char :=
  '"' :: (cs.flatMap quoteChar ++ ['"'])

mutual
/-- The characters of `JSON.stringify(v)`. -/
def stringifyChars : JSValue → List Char
  | .null => ['n', 'u', 'l', 'l']
  | .bool b => if b then ['t', 'r', 'u', 'e'] else ['f', 'a', 'l', 's', 'e']
  | .num n => intDigits n
  | .str s => quoteChars s.data
  | .arr xs => '[' :: (stringifyElems xs ++ [']'])
  | .obj props => '{' :: (stringifyProps props ++ ['}'])
termination_by structural v => v
/-- The elements of an array, separated by commas. -/
def stringifyElems : List JSValue → List Char
  | [] => []
  | x :: xs =>
    match xs with
    | [] => stringifyChars x
    | _ :: _ => stringifyChars x ++ ',' :: stringifyElems xs
termination_by structural xs => xs
/-- The properties of an object, separated by commas. -/
def stringifyProps : List (String × JSValue) → List Char
  | [] => []
  | p :: ps =>
    match ps with
    | [] => quoteChars p.1.data ++ ':' :: stringifyChars p.2
    | _ :: _ => quoteChars p.1.data ++ ':' :: (stringifyChars p.2 ++ ',' :: stringifyProps ps)
termination_by structural ps => ps
end

/-- The function `JSON.stringify` of the reference host. -/
def jsonStringify (v : JSValue) : String := String.mk (stringifyChars v)

/-- The insignificant whitespace of JSON. -/
def isJsonWs (c : Char) : Bool := c == ' ' || c == '\t' || c == '\n' || c == '\r'

/-- The input without its leading whitespace. -/
def skipWs (cs : List Char) : List Char := cs.dropWhile isJsonWs

/-- The value of a decimal digit. -/
def digitValue (c : Char) : Option Nat :=
  if 48 ≤ c.toNat ∧ c.toNat ≤ 57 then some (c.toNat - 48) else none

/-- The value of a hexadecimal digit. -/
def hexValue (c : Char) : Option Nat :=
  let n := c.toNat
  if 48 ≤ n ∧ n ≤ 57 then some (n - 48)
  else if 97 ≤ n ∧ n ≤ 102 then some (n - 87)
  else if 65 ≤ n ∧ n ≤ 70 then some (n - 55)
  else none

/-- The code unit written by four hexadecimal digits. -/
def hex4 (a b c d : Char) : Option Nat :=
  match hexValue a, hexValue b, hexValue c, hexValue d with
  | some x, some y, some z, some w => some (((x * 16 + y) * 16 + z) * 16 + w)
  | _, _, _, _ => none

/-- The longest run of digits, folded into `acc`, and what follows it. -/
def parseDigits : List Char → Nat → Nat × List Char
  | [], acc => (acc, [])
  | c :: cs, acc =>
    match digitValue c with
    | some d => parseDigits cs (acc * 10 + d)
    | none => (acc, c :: cs)

/-- Whether what follows an integer part continues the numeral with a fraction
or an exponent. -/
def continuesNumeral : List Char → Bool
  | [] => false
  | c :: _ => c == '.' || c == 'e' || c == 'E'

/-- An unsigned JSON integer: `0`, or a non-zero digit and further digits. -/
def parseNatural : List Char → Option (Nat × List Char)
  | [] => none
  | c :: cs =>
    match digitValue c with
    | none => none
    | some d =>
      let r := if d = 0 then (0, cs) else parseDigits cs d
      if continuesNumeral r.2 then none else some r

/-- A JSON number with an integer value. -/
def parseNumber : List Char → Option (Int × List Char)
  | [] => none
  | c :: cs =>
    if c = '-' then
      match parseNatural cs with
      | some (n, rest) => some (-(n : Int), rest)
      | none => none
    else
      match parseNatural (c :: cs) with
      | some (n, rest) => some ((n : Int), rest)
      | none => none

/-- The character a `\u` escape denotes, given what follows the `u`, and the
input after the escape. A high surrogate needs a second escape with its low
surrogate; a lone surrogate is no character. -/
def parseUnicodeEscape : List Char → Option (Char × List Char)
  | h1 :: h2 :: h3 :: h4 :: rest4 =>
    match hex4 h1 h2 h3 h4 with
    | none => none
    | some hi =>
      if 0xD800 ≤ hi ∧ hi < 0xDC00 then
        match rest4 with
        | b :: u :: l1 :: l2 :: l3 :: l4 :: rest10 =>
          match hex4 l1 l2 l3 l4 with
          | none => none
          | some lo =>
            if b = '\\' ∧ u = 'u' ∧ 0xDC00 ≤ lo ∧ lo < 0xE000 then
              some (Char.ofNat (0x10000 + (hi - 0xD800) * 0x400 + (lo - 0xDC00)), rest10)
            else none
        | _ => none
      else if 0xDC00 ≤ hi ∧ hi < 0xE000 then none
      else some (Char.ofNat hi, rest4)
  | _ => none

/-- The character an escape denotes, given what follows the backslash, and the
input after the escape. -/
def parseEscape : List Char → Option (Char × List Char)
  | [] => none
  | e :: rest =>
    if e = 'u' then parseUnicodeEscape rest
    else if e = '"' then some ('"', rest)
    else if e = '\\' then some ('\\', rest)
    else if e = '/' then some ('/', rest)
    else if e = 'b' then some (Char.ofNat 8, rest)
    else if e = 'f' then some (Char.ofNat 12, rest)
    else if e = 'n' then some ('\n', rest)
    else if e = 'r' then some ('\r', rest)
    else if e = 't' then some ('\t', rest)
    else none

/-- The characters of a string up to its closing quote, escapes resolved, and
what follows the quote. Every step consumes input, so a fuel of the length of
the input is never used up. -/
def parseStringBody : Nat → List Char → Option (List Char × List Char)
  | 0, _ => none
  | _ + 1, [] => none
  | fuel + 1, c :: cs =>
    if c = '"' then some ([], cs)
    else if c = '\\' then
      match parseEscape cs with
      | none => none
      | some (x, rest) =>
        match parseStringBody fuel rest with
        | some (s, r) => some (x :: s, r)
        | none => none
    else if c.toNat < 32 then none
    else
      match parseStringBody fuel cs with
      | some (s, r) => some (c :: s, r)
      | none => none

/-- The array index a property key denotes, if it is one: such keys come first
in an object, in ascending order. -/
def arrayIndex (k : String) : Option Nat :=
  let r := parseDigits k.data 0
  if k.data ≠ [] ∧ r.2 = [] ∧ natDigits r.1 = k.data ∧ r.1 < 4294967295 then some r.1 else none

/-- A new property put at its place in property order. -/
def insertProp (k : String) (v : JSValue) : List (String × JSValue) → List (String × JSValue)
  | [] => [(k, v)]
  | p :: ps =>
    match arrayIndex k, arrayIndex p.1 with
    | some n, some m => if n < m then (k, v) :: p :: ps else p :: insertProp k v ps
    | some _, none => (k, v) :: p :: ps
    | none, _ => p :: insertProp k v ps

/-- The operation `CreateDataProperty`: a key that exists keeps its place. -/
def setProp (props : List (String × JSValue)) (k : String) (v : JSValue) :
    List (String × JSValue) :=
  if props.any (fun p => p.1 == k) then props.map (fun p => if p.1 == k then (k, v) else p)
  else insertProp k v props

/-- The object a sequence of members in textual order denotes. -/
def mkObject (members : List (String × JSValue)) : JSValue :=
  .obj (members.foldl (fun props m => setProp props m.1 m.2) [])

/-- The literal `word` at the front of the input. -/
def expectWord (word : List Char) (v : JSValue) (cs : List Char) : Option (JSValue × List Char) :=
  if word.isPrefixOf cs then some (v, cs.drop word.length) else none

mutual
/-- A JSON value at the front of the input. -/
def parseValue : Nat → List Char → Option (JSValue × List Char)
  | 0, _ => none
  | fuel + 1, cs =>
    match skipWs cs with
    | [] => none
    | c :: rest =>
      if c = '[' then
        match skipWs rest with
        | [] => none
        | d :: rest2 =>
          if d = ']' then some (.arr [], rest2)
          else
            match parseElements fuel (d :: rest2) with
            | some (xs, r) => some (.arr xs, r)
            | none => none
      else if c = '{' then
        match skipWs rest with
        | [] => none
        | d :: rest2 =>
          if d = '}' then some (.obj [], rest2)
          else
            match parseMembers fuel (d :: rest2) with
            | some (ms, r) => some (mkObject ms, r)
            | none => none
      else if c = '"' then
        match parseStringBody rest.length rest with
        | some (s, r) => some (.str (String.mk s), r)
        | none => none
      else if c = 'n' then expectWord ['n', 'u', 'l', 'l'] .null (c :: rest)
      else if c = 't' then expectWord ['t', 'r', 'u', 'e'] (.bool true) (c :: rest)
      else if c = 'f' then expectWord ['f', 'a', 'l', 's', 'e'] (.bool false) (c :: rest)
      else
        match parseNumber (c :: rest) with
        | some (n, r) => some (.num n, r)
        | none => none
/-- The elements of an array after its opening bracket, up to the closing one. -/
def parseElements : Nat → List Char → Option (List JSValue × List Char)
  | 0, _ => none
  | fuel + 1, cs =>
    match parseValue fuel cs with
    | none => none
    | some (v, rest) =>
      match skipWs rest with
      | [] => none
      | c :: rest2 =>
        if c = ',' then
          match parseElements fuel rest2 with
          | some (vs, r) => some (v :: vs, r)
          | none => none
        else if c = ']' then some ([v], rest2)
        else none
/-- The members of an object after its opening brace, up to the closing one. -/
def parseMembers : Nat → List Char → Option (List (String × JSValue) × List Char)
  | 0, _ => none
  | fuel + 1, cs =>
    match skipWs cs with
    | [] => none
    | q :: rest =>
      if q = '"' then
        match parseStringBody rest.length rest with
        | none => none
        | some (k, rest1) =>
          match skipWs rest1 with
          | [] => none
          | colon :: rest2 =>
            if colon = ':' then
              match parseValue fuel rest2 with
              | none => none
              | some (v, rest3) =>
                match skipWs rest3 with
                | [] => none
                | c :: rest4 =>
                  if c = ',' then
                    match parseMembers fuel rest4 with
                    | some (ms, r) => some ((String.mk k, v) :: ms, r)
                    | none => none
                  else if c = '}' then some ([(String.mk k, v)], rest4)
                  else none
            else none
      else none
end

/-- The function `JSON.parse` of the reference host: one value, then nothing
but whitespace. The fuel exceeds twice the length of the text, which bounds the
depth of the calls. -/
def jsonParse (s : String) : Option JSValue :=
  match parseValue (2 * s.data.length + 2) s.data with
  | some (v, rest) => if skipWs rest = [] then some v else none
  | none => none

/-- Lower case of an ASCII letter; other characters stay. -/
def asciiLower (c : Char) : Char :=
  if 65 ≤ c.toNat ∧ c.toNat ≤ 90 then Char.ofNat (c.toNat + 32) else c

/-- The reference host. Its `toLowerCase` folds ASCII letters only. -/
def refHost : Host :=
  { parse := jsonParse, stringify := jsonStringify,
    toLowerCase := fun s => String.mk (s.data.map asciiLower),
    toLowerCase_empty := rfl }

/-! ## Vocabulary of the statements -/

/-- The string a field holds, and the empty string when it holds none. -/
def fieldText (v : JSValue) (k : String) : String :=
  match v.prop k with
  | some (.str t) => t
  | _ => ""

/-- A field that is absent or holds a string. -/
def isStringField (v : JSValue) (k : String) : Bool :=
  match v.prop k with
  | none => true
  | some (.str _) => true
  | some _ => false

/-- Whether an entry lacks the field `k`: it has no such property (as when it
is not an object at all), or the property is empty, that is the empty string or
one of the other empty values `null`, `false` and `0`. -/
def lacksField (v : JSValue) (k : String) : Bool :=
  match v with
  | .obj props =>
    match props.lookup k with
    | none => true
    | some .null => true
    | some (.bool b) => !b
    | some (.num n) => n == 0
    | some (.str t) => t == ""
    | some (.arr _) => false
    | some (.obj _) => false
  | _ => true

/-- The string `"[date] text"` of an entry, its two fields converted to strings
the way a template literal converts them. -/
def IsEntryLine (v : JSValue) (line : String) : Prop :=
  ∃ date text, toStrOpt (v.prop "date") = .ok date ∧ toStrOpt (v.prop "text") = .ok text ∧
    line = "[" ++ date ++ "] " ++ text

/-- The comparison `x.id === e.id` of two elements that are not `null`. -/
def sameId (x e : Cell) : Bool :=
  strictEq (x.ref == e.ref) (x.val.prop "id") (e.val.prop "id")

/-- An entry with both a text and a date, its fields being strings. -/
def hasTextAndDate (v : JSValue) : Bool :=
  fieldText v "text" != "" && fieldText v "date" != ""

/-- The string `"[date] text"` of an entry whose fields are strings. -/
def entryLine (v : JSValue) : String :=
  "[" ++ fieldText v "date" ++ "] " ++ fieldText v "text"

/-- The pieces of a text between its line feeds. -/
def splitLines : List Char → List (List Char)
  | [] => [[]]
  | c :: cs =>
    if c = '\n' then [] :: splitLines cs
    else
      match splitLines cs with
      | l :: ls => (c :: l) :: ls
      | [] => [[c]]

/-- The lines of a text file. -/
def lines (text : String) : List String := (splitLines text.data).map String.mk

/-- The inputs of one form submission: the clock, the textarea value and the
date string of the host. -/
structure Submission where
  now : Int
  value : String
  today : String

/-- The entry the submit handler creates from these inputs. -/
def Submission.entry (sub : Submission) : JSValue :=
  mkEntry sub.now (trim sub.value) sub.today

/-- The row text and export line of that entry. -/
def Submission.line (sub : Submission) : String :=
  "[" ++ sub.today ++ "] " ++ trim sub.value

/-- An entry of the data model: an integer id, a text and a date. -/
structure Entry where
  id : Int
  text : String
  date : String

/-- The object that holds an entry, as the submit handler builds it and as the
persisted record encodes it. -/
def Entry.toJS (e : Entry) : JSValue := mkEntry e.id e.text e.date

/-- The string `"[date] text"` of an entry. -/
def Entry.line (e : Entry) : String := "[" ++ e.date ++ "] " ++ e.text

/-- The clock readings of the form submits among the events, in order. -/
def timestamps : List Event → List Int
  | [] => []
  | .submit now _ :: evs => now :: timestamps evs
  | .input _ :: evs => timestamps evs
  | .delete _ _ :: evs => timestamps evs
  | .search _ :: evs => timestamps evs
  | .download :: evs => timestamps evs

/-- What holds of every state of a page loaded from the array `parsed` stored
as `saved`: rows only show entries with text, the entries without text were
elements of `parsed`, and the persisted record is the loaded string or the
serialisation of the in-memory sequence. -/
def TextInv (host : Host) (saved : String) (parsed : List JSValue) (s : State) : Prop :=
  (∀ li ∈ s.list, lacksText li.entryObj.val = false) ∧
  (∀ c ∈ s.entriesArray, lacksText c.val = true → c ∈ mkCells 0 parsed) ∧
  (s.storage = some saved ∨
    s.storage = some (host.stringify (.arr (s.entriesArray.map Cell.val))))

/-- The rows mirror the in-memory sequence, which holds the entries `es`: one
row per entry, in order, with the text of that entry, the counter showing their
number; every entry has a text and no two have the same id. -/
def Mirrors (s : State) (es : List Entry) : Prop :=
  s.entriesArray.map Cell.val = es.map Entry.toJS ∧
  s.list.map Row.entryObj = s.entriesArray ∧
  s.list.map Row.content = es.map Entry.line ∧
  s.entryCount = some (countText s.list.length) ∧
  (∀ e ∈ es, e.text ≠ "") ∧
  (es.map Entry.id).Nodup

/-! ## Concrete pages on which the theorems are instantiated -/

/-- A page whose textarea holds a journal line between blanks. -/
def typedState : State :=
  { init none with textarea := "  Fixed the bug \n" }

/-- A page with one entry whose textarea holds blanks only. -/
def blankState : State :=
  { (handle refHost typedState (.submit 1700000000000 "04/11/2026")).state with
    textarea := " \t\n " }

/-- A page with two rows, as left by two submissions. -/
def twoRows : State :=
  runEvents refHost (init none)
    [.input "Fixed the bug", .submit 1700000000000 "04/11/2026",
     .input "Wrote tests", .submit 1700000000500 "04/11/2026"]

/-- A snapshot holding the one entry of the export example. -/
def helloSnapshot : String := "[\x7b\"date\":\"1/1/2024\",\"text\":\"hello\"\x7d]"

/-- A snapshot edited by hand: a number as text and a boolean as date, an entry
without date, and an entry as the script writes it. -/
def mixedSnapshot : String :=
  "[\x7b\"text\":5,\"date\":true\x7d,\x7b\"id\":7,\"text\":\"no date\"\x7d," ++
  "\x7b\"id\":1700000000000,\"text\":\"Fixed the bug\",\"date\":\"04/11/2026\"\x7d]"

/-- A snapshot whose second entry makes the template literal throw, after the
first entry got its row. -/
def throwingSnapshot : String :=
  "[\x7b\"id\":1,\"text\":\"kept\",\"date\":\"03/11/2026\"\x7d," ++
  "\x7b\"id\":2,\"text\":\x7b\"toString\":0\x7d,\"date\":\"03/11/2026\"\x7d," ++
  "\x7b\"id\":3,\"date\":\"03/11/2026\"\x7d]"

/-- A page after the submission of a two-line text. -/
def twoLineEntry : State :=
  runEvents refHost (init none)
    [.input "line one\nline two", .submit 1700000000000 "04/11/2026"]

/-- A page after two submissions within the same millisecond. -/
def sameMillisecond : State :=
  runEvents refHost (init none)
    [.input "first", .submit 1700000000000 "04/11/2026",
     .input "second", .submit 1700000000000 "04/11/2026"]

/-- A page loaded from a snapshot whose first element is `null`. -/
def nullElement : State :=
  (load refHost (some "[null,\x7b\"id\":1,\"text\":\"a\",\"date\":\"04/11/2026\"\x7d]")).state

/-- A snapshot cut short, as a write that did not complete leaves it. -/
def truncatedSnapshot : String :=
  "[\x7b\"id\":1700000000000,\"text\":\"Fixed the bug\",\"date\":\"04/11"

/-- A snapshot whose only entry has no text. -/
def textlessSnapshot : String := "[\x7b\"id\":1,\"date\":\"03/11/2026\"\x7d]"

/-- The page loaded from `textlessSnapshot`, after one submission. -/
def textlessThenSubmit : State :=
  run refHost (some textlessSnapshot) [.input "Wrote tests", .submit 1700000000500 "04/11/2026"]

/-- A snapshot of two entries, as the script itself writes it. -/
def twoEntrySnapshot : String :=
  "[\x7b\"id\":1700000000000,\"text\":\"Fixed the bug\",\"date\":\"04/11/2026\"\x7d," ++
  "\x7b\"id\":1700000000500,\"text\":\"Wrote tests\",\"date\":\"04/11/2026\"\x7d]"

/-- The entries `twoEntrySnapshot` encodes. -/
def twoEntries : List Entry :=
  [⟨1700000000000, "Fixed the bug", "04/11/2026"⟩, ⟨1700000000500, "Wrote tests", "04/11/2026"⟩]

/-- A session on the loaded page: a search, a declined and a confirmed deletion,
a blank submit and a submission. -/
def session : List Event :=
  [.search "bug", .delete 0 false, .delete 0 true, .input "  ", .submit 1700000000700 "05/11/2026",
   .input "Shipped it", .submit 1700000000900 "05/11/2026", .download]

/-- A page holding three entries, one of them with quotes, a backslash, a line
feed and a control character in its text, and one with a negative id. -/
def escapedEntries : State :=
  { init none with
    entriesArray :=
      [⟨0, mkEntry 1700000000000 "say \"hi\"\\\n\x01 done" "04/11/2026"⟩,
       ⟨1, mkEntry (-5) "" ""⟩,
       ⟨2, mkEntry 0 "naïve café ✓" "05/11/2026"⟩] }

/-- The page loaded from `throwingSnapshot`, after a confirmed deletion of the
one row it shows. -/
def throwingThenDelete : State :=
  run refHost (some throwingSnapshot) [.input "draft", .delete 0 true]

/-! ## Basic facts about the submitted object -/

theorem prop_mkEntry_text (id : Int) (text date : String) :
    (mkEntry id text date).prop "text" = some (.str text) := by
  simp [mkEntry, JSValue.prop, List.lookup]

theorem prop_mkEntry_date (id : Int) (text date : String) :
    (mkEntry id text date).prop "date" = some (.str date) := by
  simp [mkEntry, JSValue.prop, List.lookup]

theorem prop_mkEntry_id (id : Int) (text date : String) :
    (mkEntry id text date).prop "id" = some (.num id) := by
  simp [mkEntry, JSValue.prop, List.lookup]

theorem lacksText_mkEntry (id : Int) (text date : String) :
    lacksText (mkEntry id text date) = decide (text = "") := by
  unfold lacksText
  rw [prop_mkEntry_text]
  by_cases h : text = "" <;> simp [truthyOpt, JSValue.truthy, mkEntry, h]

theorem formatEntry_mkEntry (id : Int) (text date : String) :
    formatEntry (mkEntry id text date) = .ok ("[" ++ date ++ "] " ++ text) := by
  simp [formatEntry, prop_mkEntry_text, prop_mkEntry_date, toStrOpt, JSValue.toStr]

theorem trimChars_eq_nil_of_all (cs : List Char) (h : ∀ c ∈ cs, isWhiteSpace c = true) :
    trimChars cs = [] := by
  have h1 : cs.dropWhile isWhiteSpace = [] := by
    rw [List.dropWhile_eq_nil_iff]; exact h
  simp [trimChars, h1]


/-! ## Form submission -/

theorem submitHandler_of_ne (host : Host) (s : State) (now : Int) (today : String)
    (h : trim s.textarea ≠ "") :
    submitHandler host s now today =
      ⟨{ entriesArray := s.entriesArray ++ [Cell.mk s.nextRef (mkEntry now (trim s.textarea) today)],
         list := s.list ++ [Row.mk (Cell.mk s.nextRef (mkEntry now (trim s.textarea) today))
           ("[" ++ today ++ "] " ++ trim s.textarea) Display.unset],
         storage := some (host.stringify (.arr ((s.entriesArray ++
           [Cell.mk s.nextRef (mkEntry now (trim s.textarea) today)]).map Cell.val))),
         textarea := "",
         entryCount := some (countText (s.entriesArray.length + 1)),
         noResults := s.noResults,
         nextRef := s.nextRef + 1 }, none⟩ := by
  simp [submitHandler, h, addEntry, lacksText_mkEntry, formatEntry_mkEntry,
    saveEntriesToStorage, updateEntryCount]

theorem submitHandler_of_eq (host : Host) (s : State) (now : Int) (today : String)
    (h : trim s.textarea = "") : submitHandler host s now today = ⟨s, none⟩ := by
  simp [submitHandler, h]

/-- C3. A form submit whose trimmed textarea value `t` is not empty raises no
error, appends exactly the entry `{id: now, text: t, date: today}` at the end of
the in-memory sequence (the earlier entries stay, in order, and the length grows
by one) and appends exactly one row, whose text is `"[today] t"`. -/
theorem submit_appends_entry (host : Host) (s : State) (now : Int) (today : String)
    (h : trim s.textarea ≠ "") :
    (handle host s (.submit now today)).thrown = none ∧
    (∃ r, (handle host s (.submit now today)).state.entriesArray =
      s.entriesArray ++ [⟨r, mkEntry now (trim s.textarea) today⟩]) ∧
    (handle host s (.submit now today)).state.entriesArray.length =
      s.entriesArray.length + 1 ∧
    (∃ li, (handle host s (.submit now today)).state.list = s.list ++ [li] ∧
      li.content = "[" ++ today ++ "] " ++ trim s.textarea ∧
      li.entryObj.val = mkEntry now (trim s.textarea) today) := by
  simp only [handle]
  rw [submitHandler_of_ne host s now today h]
  refine ⟨rfl, ⟨s.nextRef, rfl⟩, by simp, ⟨_, rfl, rfl, rfl⟩⟩

theorem submit_appends_entry_witness :
    (handle refHost typedState (.submit 1700000000000 "04/11/2026")).state.list.map Row.content
      = ["[04/11/2026] Fixed the bug"] := by
  obtain ⟨_, _, _, li, h1, h2, _⟩ :=
    submit_appends_entry refHost typedState 1700000000000 "04/11/2026" (by decide)
  rw [h1, List.map_append, List.map_cons, h2]
  decide

/-- C4. A form submit while the textarea is empty or holds only whitespace
changes nothing: the in-memory sequence, the rows, the persisted record and the
rest of the state stay as they are, and no error is raised. -/
theorem submit_blank_noop (host : Host) (s : State) (now : Int) (today : String)
    (h : ∀ c ∈ s.textarea.data, isWhiteSpace c = true) :
    handle host s (.submit now today) = ⟨s, none⟩ := by
  have ht : trim s.textarea = "" := by
    simp only [trim, trimChars_eq_nil_of_all _ h]
  simp only [handle]
  exact submitHandler_of_eq host s now today ht

theorem submit_blank_noop_witness :
    handle refHost blankState (.submit 1700000000001 "04/11/2026") = ⟨blankState, none⟩ :=
  submit_blank_noop refHost blankState 1700000000001 "04/11/2026" (by decide)

/-! ## Search -/

theorem includesChars_iff (text kw : List Char) :
    includesChars text kw = true ↔ kw <:+: text := by
  induction text with
  | nil => simp [includesChars, List.isEmpty_iff]
  | cons c text ih =>
    simp only [includesChars, Bool.or_eq_true, ih, List.isPrefixOf_iff_prefix]
    exact List.infix_cons_iff.symm

theorem isVisible_iff (host : Host) (keyword : String) (li : Row) :
    isVisible host keyword li = true ↔ keyword.data <:+: (host.toLowerCase li.content).data := by
  simp [isVisible, includes, includesChars_iff]

/-- C9. After the search handler ran on keyword `k`: the rows are the same rows
in the same order (same entry, same text), a row is shown (`block`) exactly when
its lower-cased text contains the lower-cased `k` and is hidden (`none`)
otherwise; the no-results indicator is shown exactly when no row is shown; with
`k` empty every row is shown; the in-memory sequence, the persisted record and
the other fields did not change. -/
theorem search_filters_rows (host : Host) (s : State) (k : String) :
    (searchHandler host s k).list.map Row.entryObj = s.list.map Row.entryObj ∧
    (searchHandler host s k).list.map Row.content = s.list.map Row.content ∧
    (∀ li ∈ (searchHandler host s k).list,
      (li.display = Display.block ↔
        (host.toLowerCase k).data <:+: (host.toLowerCase li.content).data) ∧
      (li.display = Display.block ∨ li.display = Display.none)) ∧
    ((searchHandler host s k).noResults = Display.block ↔
      ∀ li ∈ (searchHandler host s k).list, li.display ≠ Display.block) ∧
    ((searchHandler host s k).noResults = Display.block ∨
      (searchHandler host s k).noResults = Display.none) ∧
    (∀ li ∈ (searchHandler host s "").list, li.display = Display.block) ∧
    (searchHandler host s k).entriesArray = s.entriesArray ∧
    (searchHandler host s k).storage = s.storage ∧
    (searchHandler host s k).textarea = s.textarea ∧
    (searchHandler host s k).entryCount = s.entryCount := by
  refine ⟨?_, ?_, ?_, ?_, ?_, ?_, rfl, rfl, rfl, rfl⟩
  · simp [searchHandler, Function.comp_def]
  · simp [searchHandler, Function.comp_def]
  · intro li hli
    simp only [searchHandler, List.mem_map] at hli
    obtain ⟨r, _, rfl⟩ := hli
    by_cases hv : isVisible host (host.toLowerCase k) r = true
    · simp [hv, ← isVisible_iff]
    · simp [hv, ← isVisible_iff]
  · simp only [searchHandler, List.mem_map, List.any_eq_true]
    constructor
    · intro h li ⟨r, hr, hli⟩ hd
      by_cases hv : isVisible host (host.toLowerCase k) r = true
      · have : ∃ x ∈ s.list, isVisible host (host.toLowerCase k) x = true := ⟨r, hr, hv⟩
        simp [this] at h
      · subst hli
        simp [hv] at hd
    · intro h
      by_cases hex : ∃ x ∈ s.list, isVisible host (host.toLowerCase k) x = true
      · obtain ⟨r, hr, hv⟩ := hex
        exact absurd (by simp [hv]) (h _ ⟨r, hr, rfl⟩)
      · simp [hex]
  · simp only [searchHandler]
    split <;> simp
  · intro li hli
    simp only [searchHandler, List.mem_map] at hli
    obtain ⟨r, _, rfl⟩ := hli
    have hv : isVisible host (host.toLowerCase "") r = true := by
      rw [isVisible_iff, host.toLowerCase_empty]
      exact List.nil_infix
    simp [hv]

theorem search_scenario :
    (searchHandler refHost twoRows "BUG").list.map Row.display = [Display.block, Display.none] ∧
    (searchHandler refHost twoRows "BUG").noResults = Display.none ∧
    (searchHandler refHost twoRows "xyz").list.map Row.display = [Display.none, Display.none] ∧
    (searchHandler refHost twoRows "xyz").noResults = Display.block := by
  decide

/-! ## Export -/

theorem truthyOpt_of_stringField (v : JSValue) (k : String) (h : isStringField v k = true) :
    truthyOpt (v.prop k) = (fieldText v k != "") := by
  unfold isStringField at h
  unfold fieldText
  cases hp : v.prop k with
  | none => simp [truthyOpt]
  | some w =>
    rw [hp] at h
    cases w <;> simp_all [truthyOpt, JSValue.truthy]

theorem toStrOpt_of_stringField (v : JSValue) (k : String) (h : isStringField v k = true)
    (ht : truthyOpt (v.prop k) = true) : toStrOpt (v.prop k) = .ok (fieldText v k) := by
  unfold isStringField at h
  unfold fieldText
  cases hp : v.prop k with
  | none => simp [hp, truthyOpt] at ht
  | some w =>
    rw [hp] at h
    cases w <;> simp_all [toStrOpt, JSValue.toStr]

theorem truthy_of_prop (v : JSValue) (k : String) (h : truthyOpt (v.prop k) = true) :
    v.truthy = true := by
  cases v <;> simp_all [JSValue.prop, truthyOpt, JSValue.truthy]

theorem exportable_of_stringFields (v : JSValue)
    (h : isStringField v "text" = true ∧ isStringField v "date" = true) :
    exportable v = hasTextAndDate v := by
  unfold exportable hasTextAndDate
  rw [truthyOpt_of_stringField v "text" h.1, truthyOpt_of_stringField v "date" h.2]
  by_cases ht : truthyOpt (v.prop "text") = true
  · rw [truthy_of_prop v "text" ht]; simp
  · rw [truthyOpt_of_stringField v "text" h.1] at ht
    simp only [Bool.not_eq_true] at ht
    simp [ht]

theorem formatEntry_of_stringFields (v : JSValue)
    (h : isStringField v "text" = true ∧ isStringField v "date" = true)
    (he : exportable v = true) :
    formatEntry v = .ok (entryLine v) := by
  unfold exportable at he
  simp only [Bool.and_eq_true] at he
  unfold formatEntry entryLine
  rw [toStrOpt_of_stringField v "date" h.2 he.2, toStrOpt_of_stringField v "text" h.1 he.1.2]

theorem exportLines_of_stringFields (vs : List JSValue)
    (h : ∀ v ∈ vs, isStringField v "text" = true ∧ isStringField v "date" = true) :
    exportLines (vs.filter exportable) =
      .ok ((vs.filter hasTextAndDate).map entryLine) := by
  induction vs with
  | nil => rfl
  | cons v vs ih =>
    have hv := h v (List.mem_cons_self _ _)
    have ih1 := ih (fun w hw => h w (List.mem_cons_of_mem _ hw))
    by_cases he : exportable v = true
    · have he2 := he
      rw [exportable_of_stringFields v hv] at he2
      rw [List.filter_cons_of_pos he, List.filter_cons_of_pos he2]
      simp only [exportLines, formatEntry_of_stringFields v hv he, ih1, List.map_cons]
    · have he2 := he
      rw [exportable_of_stringFields v hv] at he2
      rw [List.filter_cons_of_neg he, List.filter_cons_of_neg he2]
      exact ih1

theorem downloadHandler_of_stringFields (s : State)
    (h : ∀ c ∈ s.entriesArray,
      isStringField c.val "text" = true ∧ isStringField c.val "date" = true)
    (hne : s.entriesArray ≠ []) :
    downloadHandler s = .file "dev-journal.txt" "text/plain"
      (joinWith "\n" (((s.entriesArray.map Cell.val).filter hasTextAndDate).map entryLine)) := by
  have hlen : s.entriesArray.length ≠ 0 := by
    intro h0
    exact hne (List.length_eq_zero.mp h0)
  have hvs : ∀ v ∈ s.entriesArray.map Cell.val,
      isStringField v "text" = true ∧ isStringField v "date" = true := by
    intro v hv
    obtain ⟨c, hc, rfl⟩ := List.mem_map.mp hv
    exact h c hc
  unfold downloadHandler
  rw [if_neg hlen, exportLines_of_stringFields _ hvs]

theorem joinWith_data (ls : List String) :
    (joinWith "\n" ls).data = List.intercalate ['\n'] (ls.map String.data) := by
  induction ls with
  | nil => rfl
  | cons a rest ih =>
    cases rest with
    | nil => simp [joinWith, List.intercalate]
    | cons b rest =>
      have hd : (joinWith "\n" (a :: b :: rest)).data =
          a.data ++ '\n' :: (joinWith "\n" (b :: rest)).data := by
        simp [joinWith, String.data_append]
      rw [hd, ih]
      simp [List.intercalate, List.intersperse]

theorem truthyOpt_prop (v : JSValue) (k : String) :
    truthyOpt (v.prop k) = !lacksField v k := by
  cases v with
  | obj props =>
    simp only [lacksField, JSValue.prop]
    cases props.lookup k with
    | none => rfl
    | some t => cases t <;> simp [truthyOpt, JSValue.truthy, bne]
  | null => rfl
  | bool b => rfl
  | num n => rfl
  | str t => rfl
  | arr xs => rfl

theorem exportable_eq_lacksField (v : JSValue) :
    exportable v = (!lacksField v "text" && !lacksField v "date") := by
  unfold exportable
  rw [← truthyOpt_prop, ← truthyOpt_prop]
  by_cases ht : truthyOpt (v.prop "text") = true
  · rw [truthy_of_prop v "text" ht]; simp
  · simp only [Bool.not_eq_true] at ht
    simp [ht]

theorem isEntryLine_of_formatEntry (v : JSValue) (line : String)
    (h : formatEntry v = .ok line) : IsEntryLine v line := by
  unfold formatEntry at h
  cases hd : toStrOpt (v.prop "date") with
  | error e => simp [hd] at h
  | ok date =>
    cases ht : toStrOpt (v.prop "text") with
    | error e => simp [hd, ht] at h
    | ok text =>
      simp only [hd, ht] at h
      exact ⟨date, text, hd, ht, (Except.ok.inj h).symm⟩

theorem exportLines_of_formats (vs : List JSValue)
    (h : ∀ v ∈ vs, ∃ line, formatEntry v = .ok line) :
    ∃ pieces, exportLines vs = .ok pieces ∧ List.Forall₂ IsEntryLine vs pieces := by
  induction vs with
  | nil => exact ⟨[], rfl, List.Forall₂.nil⟩
  | cons v vs ih =>
    obtain ⟨line, hline⟩ := h v (List.mem_cons_self _ _)
    obtain ⟨pieces, hp, hf⟩ := ih (fun w hw => h w (List.mem_cons_of_mem _ hw))
    refine ⟨line :: pieces, ?_, List.Forall₂.cons (isEntryLine_of_formatEntry v line hline) hf⟩
    simp [exportLines, hline, hp]

theorem addEntry_formats (host : Host) (s s1 : State) (c : Cell) (skipSave : Bool)
    (h : addEntry host s c skipSave = .ok s1) :
    lacksText c.val = true ∨ ∃ line, formatEntry c.val = .ok line := by
  unfold addEntry at h
  by_cases hl : lacksText c.val = true
  · exact Or.inl hl
  · right
    simp only [hl, if_false] at h
    cases hf : formatEntry c.val with
    | error e => simp [hf] at h
    | ok content => exact ⟨content, rfl⟩

theorem renderAll_formats (host : Host) (cs : List Cell) (s : State)
    (h : (renderAll host s cs).thrown = none) :
    ∀ c ∈ cs, lacksText c.val = true ∨ ∃ line, formatEntry c.val = .ok line := by
  induction cs generalizing s with
  | nil => intro c hc; cases hc
  | cons c cs ih =>
    unfold renderAll at h
    cases ha : addEntry host s c true with
    | error e => simp [ha] at h
    | ok s1 =>
      simp only [ha] at h
      intro x hx
      rcases List.mem_cons.mp hx with rfl | hx1
      · exact addEntry_formats host s s1 x true ha
      · exact ih s1 h x hx1

theorem splitLines_of_not_mem (l : List Char) (h : '\n' ∉ l) : splitLines l = [l] := by
  induction l with
  | nil => rfl
  | cons c l ih =>
    have hc : c ≠ '\n' := fun e => h (e ▸ List.mem_cons_self _ _)
    have hl : '\n' ∉ l := fun m => h (List.mem_cons_of_mem _ m)
    simp [splitLines, hc, ih hl]

theorem splitLines_append (l rest : List Char) (h : '\n' ∉ l) :
    splitLines (l ++ '\n' :: rest) = l :: splitLines rest := by
  induction l with
  | nil => simp [splitLines]
  | cons c l ih =>
    have hc : c ≠ '\n' := fun e => h (e ▸ List.mem_cons_self _ _)
    have hl : '\n' ∉ l := fun m => h (List.mem_cons_of_mem _ m)
    simp [splitLines, hc, ih hl]

theorem lines_joinWith (ls : List String) (hne : ls ≠ [])
    (h : ∀ l ∈ ls, '\n' ∉ l.data) : lines (joinWith "\n" ls) = ls := by
  induction ls with
  | nil => exact absurd rfl hne
  | cons a rest ih =>
    have ha : '\n' ∉ a.data := h a (List.mem_cons_self _ _)
    cases rest with
    | nil => simp [joinWith, lines, splitLines_of_not_mem _ ha]
    | cons b rest =>
      have ih1 := ih (List.cons_ne_nil _ _) (fun l hl => h l (List.mem_cons_of_mem _ hl))
      unfold lines at ih1 ⊢
      have hd : (joinWith "\n" (a :: b :: rest)).data =
          a.data ++ '\n' :: (joinWith "\n" (b :: rest)).data := by
        simp [joinWith, String.data_append]
      rw [hd, splitLines_append _ _ ha, List.map_cons, ih1]

theorem fieldText_entry_text (sub : Submission) : fieldText sub.entry "text" = trim sub.value := by
  simp [fieldText, Submission.entry, prop_mkEntry_text]

theorem fieldText_entry_date (sub : Submission) : fieldText sub.entry "date" = sub.today := by
  simp [fieldText, Submission.entry, prop_mkEntry_date]

theorem isStringField_entry (sub : Submission) :
    isStringField sub.entry "text" = true ∧ isStringField sub.entry "date" = true := by
  simp [isStringField, Submission.entry, prop_mkEntry_text, prop_mkEntry_date]

theorem entryLine_entry (sub : Submission) : entryLine sub.entry = sub.line := by
  simp [entryLine, Submission.line, fieldText_entry_text, fieldText_entry_date]

theorem filter_map_entries (subs : List Submission)
    (h : ∀ sub ∈ subs, trim sub.value ≠ "" ∧ sub.today ≠ "") :
    ((subs.map Submission.entry).filter hasTextAndDate).map entryLine =
      subs.map Submission.line := by
  induction subs with
  | nil => rfl
  | cons sub subs ih =>
    have h1 := h sub (List.mem_cons_self _ _)
    have hk : hasTextAndDate sub.entry = true := by
      simp [hasTextAndDate, fieldText_entry_text, fieldText_entry_date, h1.1, h1.2]
    rw [List.map_cons, List.filter_cons_of_pos hk, List.map_cons, entryLine_entry,
      ih (fun x hx => h x (List.mem_cons_of_mem _ hx)), List.map_cons]

/-- C7, as the code has it. For a non-empty sequence of entries created through
form submission whose texts and dates contain no line feed and whose dates are
not empty, the export file has exactly one line per entry: its lines are the
strings `"[date_i] text_i"` of the entries, in order. -/
theorem export_one_line_per_entry (s : State) (subs : List Submission)
    (hne : subs ≠ [])
    (hs : s.entriesArray.map Cell.val = subs.map Submission.entry)
    (hok : ∀ sub ∈ subs, trim sub.value ≠ "" ∧ '\n' ∉ (trim sub.value).data ∧
      sub.today ≠ "" ∧ '\n' ∉ sub.today.data) :
    ∃ text, downloadHandler s = .file "dev-journal.txt" "text/plain" text ∧
      lines text = subs.map Submission.line ∧
      (lines text).length = s.entriesArray.length := by
  have hfields : ∀ c ∈ s.entriesArray,
      isStringField c.val "text" = true ∧ isStringField c.val "date" = true := by
    intro c hc
    have hm : c.val ∈ subs.map Submission.entry := hs ▸ List.mem_map_of_mem _ hc
    obtain ⟨sub, _, hsub⟩ := List.mem_map.mp hm
    exact hsub ▸ isStringField_entry sub
  have hne2 : s.entriesArray ≠ [] := by
    intro h0
    rw [h0] at hs
    cases subs with
    | nil => exact hne rfl
    | cons a b => simp at hs
  have hlines : lines (joinWith "\n" (subs.map Submission.line)) = subs.map Submission.line := by
    apply lines_joinWith
    · simpa using hne
    · intro l hl
      obtain ⟨sub, hsub, rfl⟩ := List.mem_map.mp hl
      obtain ⟨_, h2, _, h4⟩ := hok sub hsub
      simp only [Submission.line, String.data_append, List.mem_append, not_or]
      refine ⟨⟨⟨by decide, h4⟩, by decide⟩, h2⟩
  refine ⟨_, downloadHandler_of_stringFields s hfields hne2, ?_, ?_⟩
  · rw [hs, filter_map_entries subs (fun sub hsub => ⟨(hok sub hsub).1, (hok sub hsub).2.2.1⟩)]
    exact hlines
  · rw [hs, filter_map_entries subs (fun sub hsub => ⟨(hok sub hsub).1, (hok sub hsub).2.2.1⟩),
      hlines]
    have := congrArg List.length hs
    simpa using this.symm

theorem export_one_line_per_entry_witness :
    ∃ text, downloadHandler twoRows = .file "dev-journal.txt" "text/plain" text ∧
      lines text = ["[04/11/2026] Fixed the bug", "[04/11/2026] Wrote tests"] ∧
      (lines text).length = twoRows.entriesArray.length :=
  export_one_line_per_entry twoRows
    [⟨1700000000000, "Fixed the bug", "04/11/2026"⟩, ⟨1700000000500, "Wrote tests", "04/11/2026"⟩]
    (by simp) (by rfl) (by decide)

/-- C7 as stated fails: one submitted entry whose text spans two lines gives an
export file of two lines, the second of which is not of the form
`"[date] text"`. -/
theorem export_line_count_counterexample :
    twoLineEntry.entriesArray.length = 1 ∧
    downloadHandler twoLineEntry =
      .file "dev-journal.txt" "text/plain" "[04/11/2026] line one\nline two" ∧
    lines "[04/11/2026] line one\nline two" = ["[04/11/2026] line one", "line two"] := by
  decide

/-! ## Deletion -/

theorem sameId_self (e : Cell) : sameId e e = true := by
  unfold sameId
  cases h : e.val.prop "id" with
  | none => simp [strictEq]
  | some v => cases v <;> simp [strictEq]

theorem filterIds_eq_filter (e : Cell) (l : List Cell) (he : e.val.isNull = false)
    (hl : ∀ x ∈ l, x.val.isNull = false) :
    filterIds e l = .ok (l.filter (fun x => !sameId x e)) := by
  induction l with
  | nil => rfl
  | cons x l ih =>
    have hx := hl x (List.mem_cons_self _ _)
    have ih1 := ih (fun y hy => hl y (List.mem_cons_of_mem _ hy))
    simp only [filterIds, JSValue.getProp, hx, he, ih1, Bool.false_eq_true, if_false]
    by_cases hs : sameId x e = true
    · have hs1 := hs
      unfold sameId at hs1
      simp [hs, hs1]
    · have hs1 := hs
      unfold sameId at hs1
      simp [hs, hs1]

/-- C2, as the code has it. In a state whose in-memory sequence has no `null`
element, let `e` be an entry of the sequence with a rendered row, such that no
other element of the sequence and no other row has an id equal to `e.id`. A
confirmed deletion of the row of `e` raises no error, removes `e` and nothing
else from the sequence (the length decreases by exactly 1), removes that row
and nothing else from the view, and no row with id `e.id` remains. -/
theorem delete_removes_entry (host : Host) (s : State) (i : Nat) (li : Row)
    (pre post : List Cell)
    (hrow : s.list[i]? = some li)
    (hmem : s.entriesArray = pre ++ li.entryObj :: post)
    (hnull : ∀ x ∈ s.entriesArray, x.val.isNull = false)
    (huniq : ∀ x ∈ pre ++ post, sameId x li.entryObj = false)
    (hrows : ∀ r ∈ s.list.eraseIdx i, sameId r.entryObj li.entryObj = false) :
    (deleteHandler host s i true).thrown = none ∧
    (deleteHandler host s i true).state.entriesArray = pre ++ post ∧
    (deleteHandler host s i true).state.entriesArray.length + 1 = s.entriesArray.length ∧
    (deleteHandler host s i true).state.list = s.list.eraseIdx i ∧
    (∀ r ∈ (deleteHandler host s i true).state.list, sameId r.entryObj li.entryObj = false) := by
  have he : li.entryObj.val.isNull = false := hnull _ (by simp [hmem])
  have hfilter : s.entriesArray.filter (fun x => !sameId x li.entryObj) = pre ++ post := by
    have hpre : pre.filter (fun x => !sameId x li.entryObj) = pre :=
      List.filter_eq_self.mpr (fun x hx => by simp [huniq x (List.mem_append_left _ hx)])
    have hpost : post.filter (fun x => !sameId x li.entryObj) = post :=
      List.filter_eq_self.mpr (fun x hx => by simp [huniq x (List.mem_append_right _ hx)])
    have hself : (!sameId li.entryObj li.entryObj) = false := by simp [sameId_self]
    rw [hmem, List.filter_append, List.filter_cons, hpre, hpost]
    simp [hself]
  have hout : deleteHandler host s i true =
      ⟨updateEntryCount (saveEntriesToStorage host
        { s with list := s.list.eraseIdx i, entriesArray := pre ++ post }), none⟩ := by
    simp [deleteHandler, hrow, filterIds_eq_filter _ _ he hnull, hfilter]
  rw [hout]
  refine ⟨rfl, rfl, ?_, rfl, ?_⟩
  · simp [updateEntryCount, saveEntriesToStorage, hmem]
    omega
  · intro r hr
    exact hrows r hr

theorem delete_removes_entry_witness :
    (deleteHandler refHost twoRows 1 true).state.entriesArray.map Cell.ref = [0] ∧
    (deleteHandler refHost twoRows 1 true).state.list.map Row.content =
      ["[04/11/2026] Fixed the bug"] := by
  have h := delete_removes_entry refHost twoRows 1
    ⟨⟨1, mkEntry 1700000000500 "Wrote tests" "04/11/2026"⟩,
      "[04/11/2026] Wrote tests", Display.unset⟩
    [⟨0, mkEntry 1700000000000 "Fixed the bug" "04/11/2026"⟩] []
    (by rfl) (by rfl) (by decide) (by decide) (by decide)
  refine ⟨?_, ?_⟩
  · rw [h.2.1]; rfl
  · rw [h.2.2.2.1]; decide

/-- C2 as stated fails. With two entries created in the same millisecond, a
confirmed deletion of the first row empties the in-memory sequence (its length
drops by 2) while the row of the second entry, which has the deleted id, stays
in the view. With a `null` element in the sequence the deletion removes the row,
throws, and leaves the sequence as long as before. -/
theorem delete_counterexample :
    sameMillisecond.entriesArray.map Cell.ref = [0, 1] ∧
    sameMillisecond.list.map (fun li => li.entryObj.ref) = [0, 1] ∧
    (deleteHandler refHost sameMillisecond 0 true).state.entriesArray.length = 0 ∧
    (deleteHandler refHost sameMillisecond 0 true).state.list.map
      (fun li => (li.entryObj.ref, li.content)) = [(1, "[04/11/2026] second")] ∧
    (deleteHandler refHost sameMillisecond 0 true).state.list.map
      (fun r => sameId r.entryObj ⟨0, mkEntry 1700000000000 "first" "04/11/2026"⟩) = [true] ∧
    nullElement.entriesArray.length = 2 ∧
    nullElement.list.map (fun li => li.entryObj.ref) = [1] ∧
    (deleteHandler refHost nullElement 0 true).thrown = some JSError.typeError ∧
    (deleteHandler refHost nullElement 0 true).state.entriesArray.length = 2 ∧
    (deleteHandler refHost nullElement 0 true).state.list.length = 0 := by
  decide

/-! ## Loading -/

theorem load_of_parse_none (host : Host) (saved : String) (hne : saved ≠ "")
    (hp : host.parse saved = none) :
    load host (some saved) = ⟨init (some saved), some .syntaxError⟩ := by
  simp [load, hne, hp]

theorem load_of_not_array (host : Host) (saved : String) (v : JSValue) (hne : saved ≠ "")
    (hp : host.parse saved = some v) (hv : ∀ xs, v ≠ .arr xs) :
    (load host (some saved)).thrown = none ∧
    (load host (some saved)).state.entriesArray = [] ∧
    (load host (some saved)).state.list = [] := by
  cases v with
  | arr xs => exact absurd rfl (hv xs)
  | null => simp [load, hne, hp, updateEntryCount, init]
  | bool b => simp [load, hne, hp, updateEntryCount, init]
  | num n => simp [load, hne, hp, updateEntryCount, init]
  | str t => simp [load, hne, hp, updateEntryCount, init]
  | obj ps => simp [load, hne, hp, updateEntryCount, init]

theorem load_of_empty (host : Host) : load host (some "") = ⟨init (some ""), none⟩ := by
  simp [load]

theorem runBroken_no_rows (host : Host) (evs : List Event) (s : State) (h : s.list = []) :
    (runBroken host s evs).entriesArray = s.entriesArray ∧
    (runBroken host s evs).list = [] ∧
    (runBroken host s evs).storage = s.storage := by
  induction evs generalizing s with
  | nil => exact ⟨rfl, h, rfl⟩
  | cons ev evs ih =>
    cases ev with
    | input value => exact ih { s with textarea := value } h
    | submit now today => exact ⟨rfl, h, rfl⟩
    | search value => exact ih s h
    | download => exact ih s h
    | delete i confirmDelete =>
      have hd : (deleteHandler host s i confirmDelete).state = s := by
        simp [deleteHandler, h]
      simp only [runBroken, hd]
      exact ih s h

/-- C1 fails on the code. For every stored string that is not empty and that
`JSON.parse` rejects, the load step ends in an uncaught `SyntaxError`: the
collection is empty and no row is rendered, but an error is raised, and since
the rest of the script does not run, whatever events follow leave the
collection and the view empty and the persisted record as it was. -/
theorem load_throws_on_invalid_json (host : Host) (saved : String) (hne : saved ≠ "")
    (hp : host.parse saved = none) :
    (load host (some saved)).thrown = some JSError.syntaxError ∧
    (load host (some saved)).state.entriesArray = [] ∧
    (load host (some saved)).state.list = [] ∧
    ∀ evs, (run host (some saved) evs).entriesArray = [] ∧
      (run host (some saved) evs).list = [] ∧
      (run host (some saved) evs).storage = some saved := by
  have hl := load_of_parse_none host saved hne hp
  refine ⟨by rw [hl], by rw [hl]; rfl, by rw [hl]; rfl, fun evs => ?_⟩
  have hr : run host (some saved) evs = runBroken host (init (some saved)) evs := by
    simp [run, hl]
  rw [hr]
  exact runBroken_no_rows host evs (init (some saved)) rfl

theorem load_throws_on_invalid_json_witness :
    (load refHost (some truncatedSnapshot)).thrown = some JSError.syntaxError ∧
    (run refHost (some truncatedSnapshot)
      [.input "Wrote tests", .submit 1700000000500 "04/11/2026"]).entriesArray = [] := by
  obtain ⟨h1, _, _, h4⟩ :=
    load_throws_on_invalid_json refHost truncatedSnapshot (by decide) (by rfl)
  exact ⟨h1, (h4 _).1⟩

/-! ## Entries without text -/

theorem addEntry_skipSave (host : Host) (s s1 : State) (c : Cell)
    (h : addEntry host s c true = .ok s1) :
    s1 = s ∨ (lacksText c.val = false ∧ ∃ content, formatEntry c.val = .ok content ∧
      s1 = updateEntryCount { s with list := s.list ++ [Row.mk c content Display.unset],
                                     textarea := "" }) := by
  unfold addEntry at h
  by_cases hl : lacksText c.val = true
  · simp only [hl, if_true] at h
    exact Or.inl (Except.ok.inj h).symm
  · simp only [hl, if_false] at h
    cases hf : formatEntry c.val with
    | error e => simp [hf] at h
    | ok content =>
      simp only [hf, if_true] at h
      exact Or.inr ⟨by simpa using hl, content, rfl, (Except.ok.inj h).symm⟩

theorem renderAll_fields (host : Host) (cs : List Cell) (s : State) :
    (renderAll host s cs).state.entriesArray = s.entriesArray ∧
    (renderAll host s cs).state.storage = s.storage ∧
    ((∀ li ∈ s.list, lacksText li.entryObj.val = false) →
      ∀ li ∈ (renderAll host s cs).state.list, lacksText li.entryObj.val = false) := by
  induction cs generalizing s with
  | nil => exact ⟨rfl, rfl, fun h => h⟩
  | cons c cs ih =>
    unfold renderAll
    cases ha : addEntry host s c true with
    | error e => exact ⟨rfl, rfl, fun h => h⟩
    | ok s1 =>
      simp only
      obtain ⟨h1, h2, h3⟩ := ih s1
      rcases addEntry_skipSave host s s1 c ha with rfl | ⟨hl, content, _, rfl⟩
      · exact ⟨h1, h2, h3⟩
      · refine ⟨h1, h2, fun h => h3 ?_⟩
        intro li hli
        simp only [updateEntryCount, List.mem_append, List.mem_singleton] at hli
        rcases hli with hli | rfl
        · exact h li hli
        · exact hl

theorem mem_of_filterIds (e : Cell) (l kept : List Cell) (h : filterIds e l = .ok kept) :
    ∀ x ∈ kept, x ∈ l := by
  induction l generalizing kept with
  | nil =>
    simp only [filterIds] at h
    cases h
    intro x hx
    exact hx
  | cons y l ih =>
    unfold filterIds at h
    cases h1 : y.val.getProp "id" with
    | error err => simp [h1] at h
    | ok a =>
      cases h2 : e.val.getProp "id" with
      | error err => simp [h1, h2] at h
      | ok b =>
        cases h3 : filterIds e l with
        | error err => simp [h1, h2, h3] at h
        | ok kept1 =>
          simp only [h1, h2, h3] at h
          have hk := Except.ok.inj h
          intro x hx
          rw [← hk] at hx
          split at hx
          · exact List.mem_cons_of_mem _ (ih kept1 h3 x hx)
          · rcases List.mem_cons.mp hx with rfl | hx1
            · exact List.mem_cons_self _ _
            · exact List.mem_cons_of_mem _ (ih kept1 h3 x hx1)

theorem textInv_step (host : Host) (saved : String) (parsed : List JSValue) (s : State)
    (ev : Event) (h : TextInv host saved parsed s) : TextInv host saved parsed (step host s ev) := by
  obtain ⟨h1, h2, h3⟩ := h
  cases ev with
  | input value => exact ⟨h1, h2, h3⟩
  | download => exact ⟨h1, h2, h3⟩
  | search value =>
    refine ⟨?_, h2, h3⟩
    intro li hli
    simp only [step, handle, searchHandler, List.mem_map] at hli
    obtain ⟨r, hr, rfl⟩ := hli
    exact h1 r hr
  | submit now today =>
    by_cases ht : trim s.textarea = ""
    · simp only [step, handle, submitHandler_of_eq host s now today ht]
      exact ⟨h1, h2, h3⟩
    · simp only [step, handle, submitHandler_of_ne host s now today ht]
      refine ⟨?_, ?_, Or.inr rfl⟩
      · intro li hli
        simp only [List.mem_append, List.mem_singleton] at hli
        rcases hli with hli | rfl
        · exact h1 li hli
        · simp [lacksText_mkEntry, ht]
      · intro c hc hl
        simp only [List.mem_append, List.mem_singleton] at hc
        rcases hc with hc | rfl
        · exact h2 c hc hl
        · simp [lacksText_mkEntry, ht] at hl
  | delete i confirmDelete =>
    simp only [step, handle, deleteHandler]
    cases hrow : s.list[i]? with
    | none => exact ⟨h1, h2, h3⟩
    | some li =>
      cases confirmDelete with
      | false => exact ⟨h1, h2, h3⟩
      | true =>
        have hrows : ∀ r ∈ s.list.eraseIdx i, lacksText r.entryObj.val = false :=
          fun r hr => h1 r ((List.eraseIdx_sublist _ _).subset hr)
        simp only [Bool.not_true, Bool.false_eq_true, if_false]
        cases hf : filterIds li.entryObj s.entriesArray with
        | error e => exact ⟨hrows, h2, h3⟩
        | ok kept =>
          refine ⟨hrows, ?_, Or.inr rfl⟩
          intro c hc hl
          exact h2 c (mem_of_filterIds _ _ _ hf c hc) hl

theorem textInv_runEvents (host : Host) (saved : String) (parsed : List JSValue)
    (evs : List Event) (s : State) (h : TextInv host saved parsed s) :
    TextInv host saved parsed (runEvents host s evs) := by
  induction evs generalizing s with
  | nil => exact h
  | cons ev evs ih => exact ih (step host s ev) (textInv_step host saved parsed s ev h)

theorem textInv_load (host : Host) (saved : String) (parsed : List JSValue)
    (hp : host.parse saved = some (.arr parsed)) :
    TextInv host saved parsed (load host (some saved)).state := by
  by_cases hne : saved = ""
  · subst hne
    rw [load_of_empty]
    exact ⟨by simp [init], by simp [init], Or.inl rfl⟩
  · obtain ⟨h1, h2, h3⟩ := renderAll_fields host (mkCells 0 parsed)
      (assignParsed (some saved) parsed)
    have hrows := h3 (by simp [assignParsed, init])
    have h1a : (assignParsed (some saved) parsed).entriesArray = mkCells 0 parsed := rfl
    have h2a : (assignParsed (some saved) parsed).storage = some saved := rfl
    rw [h1a] at h1
    rw [h2a] at h2
    simp only [load, hne, if_false, hp]
    split
    · refine ⟨hrows, ?_, Or.inl ?_⟩
      · intro c hc _
        simp only [updateEntryCount, h1] at hc
        exact hc
      · simp only [updateEntryCount, h2]
    · refine ⟨hrows, ?_, Or.inl ?_⟩
      · intro c hc _
        simp only [h1] at hc
        exact hc
      · simp only [h2]

theorem textInv_runBroken (host : Host) (saved : String) (parsed : List JSValue)
    (evs : List Event) (s : State) (h : TextInv host saved parsed s) :
    TextInv host saved parsed (runBroken host s evs) := by
  induction evs generalizing s with
  | nil => exact h
  | cons ev evs ih =>
    cases ev with
    | input value => exact ih _ (textInv_step host saved parsed s (.input value) h)
    | submit now today => exact h
    | search value => exact ih s h
    | download => exact ih s h
    | delete i confirmDelete =>
      exact ih _ (textInv_step host saved parsed s (.delete i confirmDelete) h)

theorem lacksText_eq_lacksField (v : JSValue) : lacksText v = lacksField v "text" := by
  cases v with
  | obj props =>
    simp only [lacksText, lacksField, JSValue.prop, JSValue.truthy]
    cases props.lookup "text" with
    | none => rfl
    | some t => cases t <;> simp [truthyOpt, JSValue.truthy, bne]
  | null => rfl
  | bool b => simp [lacksText, lacksField, JSValue.prop, truthyOpt]
  | num n => simp [lacksText, lacksField, JSValue.prop, truthyOpt]
  | str t => simp [lacksText, lacksField, JSValue.prop, truthyOpt]
  | arr xs => simp [lacksText, lacksField, JSValue.prop, truthyOpt]

/-- C8, as the code has it. In every state reached from loading an array-valued
snapshot and any sequence of events (also when the load step threw and only the
delete listeners of the rows rendered before exist), no entry lacking text, that
is with a missing or empty `text`, appears in a rendered row; every entry
lacking text in the in-memory collection was an element of the loaded snapshot
(no submit adds one); and the persisted record is either the loaded string or
the serialisation of exactly that collection. -/
theorem textless_only_from_snapshot (host : Host) (saved : String) (parsed : List JSValue)
    (evs : List Event) (hp : host.parse saved = some (.arr parsed)) :
    (∀ li ∈ (run host (some saved) evs).list, lacksField li.entryObj.val "text" = false) ∧
    (∀ c ∈ (run host (some saved) evs).entriesArray,
      lacksField c.val "text" = true → c ∈ mkCells 0 parsed) ∧
    ((run host (some saved) evs).storage = some saved ∨
      (run host (some saved) evs).storage =
        some (host.stringify (.arr ((run host (some saved) evs).entriesArray.map Cell.val)))) := by
  have hl := textInv_load host saved parsed hp
  have hrun : TextInv host saved parsed (run host (some saved) evs) := by
    unfold run
    split
    · exact textInv_runEvents host saved parsed evs _ hl
    · exact textInv_runBroken host saved parsed evs _ hl
  obtain ⟨h1, h2, h3⟩ := hrun
  refine ⟨?_, ?_, h3⟩
  · intro li hli
    rw [← lacksText_eq_lacksField]
    exact h1 li hli
  · intro c hc hl
    rw [← lacksText_eq_lacksField] at hl
    exact h2 c hc hl

set_option maxRecDepth 100000 in
theorem textless_only_from_snapshot_witness :
    (∀ li ∈ throwingThenDelete.list, lacksField li.entryObj.val "text" = false) ∧
    (∀ c ∈ throwingThenDelete.entriesArray, lacksField c.val "text" = true →
      c ∈ mkCells 0 [mkEntry 1 "kept" "03/11/2026",
        .obj [("id", .num 2), ("text", .obj [("toString", .num 0)]),
          ("date", .str "03/11/2026")],
        .obj [("id", .num 3), ("date", .str "03/11/2026")]]) ∧
    (throwingThenDelete.storage = some throwingSnapshot ∨
      throwingThenDelete.storage =
        some (refHost.stringify (.arr (throwingThenDelete.entriesArray.map Cell.val)))) :=
  textless_only_from_snapshot refHost throwingSnapshot
    [mkEntry 1 "kept" "03/11/2026",
      .obj [("id", .num 2), ("text", .obj [("toString", .num 0)]), ("date", .str "03/11/2026")],
      .obj [("id", .num 3), ("date", .str "03/11/2026")]]
    [.input "draft", .delete 0 true] (by rfl)

set_option maxRecDepth 100000 in
theorem throwing_snapshot_trace :
    (load refHost (some throwingSnapshot)).thrown = some JSError.typeError ∧
    (load refHost (some throwingSnapshot)).state.entriesArray.map Cell.ref = [0, 1, 2] ∧
    (load refHost (some throwingSnapshot)).state.list.map Row.content = ["[03/11/2026] kept"] ∧
    throwingThenDelete.entriesArray.map Cell.ref = [1, 2] ∧
    throwingThenDelete.entriesArray.map (fun c => lacksField c.val "text") = [false, true] ∧
    throwingThenDelete.list.length = 0 ∧
    throwingThenDelete.textarea = "draft" ∧
    throwingThenDelete.storage =
      some ("[\x7b\"id\":2,\"text\":\x7b\"toString\":0\x7d,\"date\":\"03/11/2026\"\x7d," ++
        "\x7b\"id\":3,\"date\":\"03/11/2026\"\x7d]") := by
  decide

set_option maxRecDepth 100000 in
/-- C8 as stated fails. The page loaded from a snapshot whose entry has no text
keeps that entry in memory without a row, and the next submission writes it to
the persisted record together with the new entry. -/
theorem textless_persisted_counterexample :
    textlessThenSubmit.list.map Row.content = ["[04/11/2026] Wrote tests"] ∧
    textlessThenSubmit.entriesArray.map (fun c => lacksField c.val "text") = [true, false] ∧
    textlessThenSubmit.storage =
      some ("[\x7b\"id\":1,\"date\":\"03/11/2026\"\x7d," ++
        "\x7b\"id\":1700000000500,\"text\":\"Wrote tests\",\"date\":\"04/11/2026\"\x7d]") ∧
    textlessThenSubmit.storage =
      some (refHost.stringify (.arr (textlessThenSubmit.entriesArray.map Cell.val))) := by
  decide

/-! ## Rows and entries -/

theorem mkCells_val (r : Nat) (vs : List JSValue) : (mkCells r vs).map Cell.val = vs := by
  induction vs generalizing r with
  | nil => rfl
  | cons v vs ih => simp [mkCells, ih]

theorem mkCells_length (r : Nat) (vs : List JSValue) : (mkCells r vs).length = vs.length := by
  induction vs generalizing r with
  | nil => rfl
  | cons v vs ih => simp [mkCells, ih]

theorem formatEntry_toJS (e : Entry) : formatEntry e.toJS = .ok e.line := by
  simp [Entry.toJS, Entry.line, formatEntry_mkEntry]

theorem lacksText_toJS (e : Entry) (h : e.text ≠ "") : lacksText e.toJS = false := by
  simp [Entry.toJS, lacksText_mkEntry, h]

theorem isNull_toJS (e : Entry) : e.toJS.isNull = false := rfl

theorem sameId_toJS (x y : Cell) (ex ey : Entry) (hx : x.val = ex.toJS) (hy : y.val = ey.toJS) :
    sameId x y = decide (ex.id = ey.id) := by
  by_cases h : ex.id = ey.id <;>
    simp [sameId, hx, hy, Entry.toJS, prop_mkEntry_id, strictEq, h]

theorem map_eraseIdx {α β : Type} (f : α → β) (l : List α) (i : Nat) :
    (l.eraseIdx i).map f = (l.map f).eraseIdx i := by
  induction l generalizing i with
  | nil => rfl
  | cons a l ih =>
    cases i with
    | zero => rfl
    | succ i => simp [List.eraseIdx, ih]

theorem filter_eq_eraseIdx {α : Type} (p : α → Bool) (l : List α) (i : Nat) (a : α)
    (hi : l[i]? = some a) (ha : p a = false)
    (hothers : ∀ j b, j ≠ i → l[j]? = some b → p b = true) :
    l.filter p = l.eraseIdx i := by
  induction l generalizing i with
  | nil => simp at hi
  | cons x l ih =>
    cases i with
    | zero =>
      have hx : x = a := by simpa using hi
      subst hx
      have hall : ∀ b ∈ l, p b = true := by
        intro b hb
        obtain ⟨j, hj⟩ := List.getElem?_of_mem hb
        exact hothers (j + 1) b (by omega) (by simpa using hj)
      rw [List.filter_cons_of_neg (by simp [ha]), List.filter_eq_self.mpr hall]
      rfl
    | succ i =>
      have hx : p x = true := hothers 0 x (by omega) (by simp)
      rw [List.filter_cons_of_pos hx, List.eraseIdx_cons_succ]
      congr 1
      apply ih i (by simpa using hi)
      intro j b hj hb
      exact hothers (j + 1) b (by omega) (by simpa using hb)

theorem renderAll_entries (host : Host) (cs : List Cell) (s : State)
    (h : ∀ c ∈ cs, ∃ e : Entry, e.text ≠ "" ∧ c.val = e.toJS) :
    (renderAll host s cs).thrown = none ∧
    (renderAll host s cs).state.entriesArray = s.entriesArray ∧
    (renderAll host s cs).state.list =
      s.list ++ cs.map (fun c => Row.mk c (entryLine c.val) Display.unset) := by
  induction cs generalizing s with
  | nil => simp [renderAll]
  | cons c cs ih =>
    obtain ⟨e, he, hc⟩ := h c (List.mem_cons_self _ _)
    have hline : entryLine c.val = e.line := by
      simp [entryLine, fieldText, hc, Entry.toJS, prop_mkEntry_text, prop_mkEntry_date, Entry.line]
    have hadd : addEntry host s c true = .ok (updateEntryCount
        { s with list := s.list ++ [Row.mk c (entryLine c.val) Display.unset], textarea := "" }) := by
      rw [hline]
      simp [addEntry, hc, lacksText_toJS e he, formatEntry_toJS]
    obtain ⟨h1, h2, h3⟩ := ih (updateEntryCount
        { s with list := s.list ++ [Row.mk c (entryLine c.val) Display.unset], textarea := "" })
      (fun x hx => h x (List.mem_cons_of_mem _ hx))
    unfold renderAll
    rw [hadd]
    refine ⟨h1, h2, ?_⟩
    rw [h3]
    simp [updateEntryCount]

theorem mirrors_lengths (s : State) (es : List Entry) (hm : Mirrors s es) :
    s.list.length = s.entriesArray.length ∧ s.entriesArray.length = es.length := by
  obtain ⟨h1, h2, _⟩ := hm
  have a := congrArg List.length h1
  have b := congrArg List.length h2
  simp only [List.length_map] at a b
  exact ⟨b, a⟩

theorem mirrors_delete (host : Host) (s : State) (es : List Entry) (i : Nat) (li : Row)
    (hm : Mirrors s es) (hrow : s.list[i]? = some li) :
    Mirrors (deleteHandler host s i true).state (es.eraseIdx i) := by
  obtain ⟨h1, h2, h3, h4, h5, h6⟩ := hm
  have hcell : s.entriesArray[i]? = some li.entryObj := by
    rw [← h2, List.getElem?_map, hrow]; rfl
  have hval : (es.map Entry.toJS)[i]? = some li.entryObj.val := by
    rw [← h1, List.getElem?_map, hcell]; rfl
  rw [List.getElem?_map] at hval
  cases hei : es[i]? with
  | none => simp [hei] at hval
  | some ei =>
    rw [hei] at hval
    have hli : li.entryObj.val = ei.toJS := (Option.some.inj hval).symm
    have hentry : ∀ x ∈ s.entriesArray, ∃ e ∈ es, x.val = e.toJS := by
      intro x hx
      have : x.val ∈ es.map Entry.toJS := h1 ▸ List.mem_map_of_mem _ hx
      obtain ⟨e, he, hxe⟩ := List.mem_map.mp this
      exact ⟨e, he, hxe.symm⟩
    have hnull : ∀ x ∈ s.entriesArray, x.val.isNull = false := by
      intro x hx
      obtain ⟨e, _, hxe⟩ := hentry x hx
      rw [hxe]; rfl
    have hfilter : s.entriesArray.filter (fun x => !sameId x li.entryObj) =
        s.entriesArray.eraseIdx i := by
      apply filter_eq_eraseIdx _ _ i li.entryObj hcell (by simp [sameId_self])
      intro j b hj hb
      have hbv : (es.map Entry.toJS)[j]? = some b.val := by
        rw [← h1, List.getElem?_map, hb]; rfl
      rw [List.getElem?_map] at hbv
      cases hej : es[j]? with
      | none => simp [hej] at hbv
      | some ej =>
        rw [hej] at hbv
        have hbe : b.val = ej.toJS := (Option.some.inj hbv).symm
        rw [sameId_toJS b li.entryObj ej ei hbe hli]
        have hne : ej.id ≠ ei.id := by
          intro heq
          have hj1 : (es.map Entry.id)[j]? = some ej.id := by
            rw [List.getElem?_map, hej]; rfl
          have hi1 : (es.map Entry.id)[i]? = some ei.id := by
            rw [List.getElem?_map, hei]; rfl
          have hjlt : j < (es.map Entry.id).length := by
            rw [List.length_map]
            exact (List.getElem?_eq_some.mp hej).1
          exact hj (List.getElem?_inj hjlt h6 (by rw [hj1, hi1, heq]))
        simp [hne]
    have hout : deleteHandler host s i true =
        ⟨updateEntryCount (saveEntriesToStorage host
          { s with list := s.list.eraseIdx i, entriesArray := s.entriesArray.eraseIdx i }),
          none⟩ := by
      simp [deleteHandler, hrow, filterIds_eq_filter _ _ (hnull _ (List.getElem?_mem hcell)) hnull,
        hfilter]
    rw [hout]
    refine ⟨?_, ?_, ?_, ?_, ?_, ?_⟩
    · simp only [updateEntryCount, saveEntriesToStorage]
      rw [map_eraseIdx, map_eraseIdx, h1]
    · simp only [updateEntryCount, saveEntriesToStorage]
      rw [map_eraseIdx, h2]
    · simp only [updateEntryCount, saveEntriesToStorage]
      rw [map_eraseIdx, map_eraseIdx, h3]
    · simp only [updateEntryCount, saveEntriesToStorage]
      rw [← h2, ← map_eraseIdx, List.length_map]
    · intro e he
      exact h5 e ((List.eraseIdx_sublist _ _).subset he)
    · rw [map_eraseIdx]
      exact h6.sublist (List.eraseIdx_sublist _ _)

theorem mirrors_step (host : Host) (s : State) (es : List Entry) (ev : Event)
    (hm : Mirrors s es)
    (hfresh : ∀ t ∈ timestamps [ev], t ∉ es.map Entry.id) :
    ∃ es1, Mirrors (step host s ev) es1 ∧
      ∀ x ∈ es1.map Entry.id, x ∈ es.map Entry.id ∨ x ∈ timestamps [ev] := by
  cases ev with
  | input value => exact ⟨es, hm, fun x hx => Or.inl hx⟩
  | download => exact ⟨es, hm, fun x hx => Or.inl hx⟩
  | search value =>
    refine ⟨es, ?_, fun x hx => Or.inl hx⟩
    obtain ⟨h1, h2, h3, h4, h5, h6⟩ := hm
    refine ⟨h1, ?_, ?_, ?_, h5, h6⟩
    · simpa [step, handle, searchHandler, Function.comp_def] using h2
    · simpa [step, handle, searchHandler, Function.comp_def] using h3
    · simpa [step, handle, searchHandler] using h4
  | submit now today =>
    by_cases ht : trim s.textarea = ""
    · simp only [step, handle, submitHandler_of_eq host s now today ht]
      exact ⟨es, hm, fun x hx => Or.inl hx⟩
    · have hlen := mirrors_lengths s es hm
      obtain ⟨h1, h2, h3, h4, h5, h6⟩ := hm
      refine ⟨es ++ [⟨now, trim s.textarea, today⟩], ?_, ?_⟩
      · simp only [step, handle, submitHandler_of_ne host s now today ht]
        refine ⟨?_, ?_, ?_, ?_, ?_, ?_⟩
        · simp [h1, Entry.toJS]
        · simp [h2]
        · simp [h3, Entry.line]
        · simp [hlen.1]
        · intro e he
          rcases List.mem_append.mp he with he | he
          · exact h5 e he
          · rw [List.mem_singleton.mp he]; exact ht
        · rw [List.map_append, List.nodup_append]
          refine ⟨h6, by simp, ?_⟩
          intro a ha hb
          simp only [List.map_cons, List.map_nil, List.mem_singleton] at hb
          subst hb
          exact hfresh _ (by simp [timestamps]) ha
      · intro x hx
        rw [List.map_append, List.mem_append] at hx
        rcases hx with hx | hx
        · exact Or.inl hx
        · right
          simpa [timestamps] using hx
  | delete i confirmDelete =>
    cases confirmDelete with
    | false =>
      refine ⟨es, ?_, fun x hx => Or.inl hx⟩
      simp only [step, handle, deleteHandler]
      cases s.list[i]? <;> exact hm
    | true =>
      cases hrow : s.list[i]? with
      | none =>
        refine ⟨es, ?_, fun x hx => Or.inl hx⟩
        simp only [step, handle, deleteHandler, hrow]
        exact hm
      | some li =>
        refine ⟨es.eraseIdx i, mirrors_delete host s es i li hm hrow, ?_⟩
        intro x hx
        rw [map_eraseIdx] at hx
        exact Or.inl ((List.eraseIdx_sublist _ _).subset hx)

theorem timestamps_cons (ev : Event) (evs : List Event) :
    timestamps (ev :: evs) = timestamps [ev] ++ timestamps evs := by
  cases ev <;> simp [timestamps]

theorem mirrors_runEvents (host : Host) (evs : List Event) (s : State) (es : List Entry)
    (hm : Mirrors s es) (hids : (es.map Entry.id ++ timestamps evs).Nodup) :
    ∃ es1, Mirrors (runEvents host s evs) es1 := by
  induction evs generalizing s es with
  | nil => exact ⟨es, hm⟩
  | cons ev evs ih =>
    rw [timestamps_cons] at hids
    obtain ⟨hes, hts, hdisj⟩ := List.nodup_append.mp hids
    obtain ⟨hev, hevs, hdisj2⟩ := List.nodup_append.mp hts
    have hfresh : ∀ t ∈ timestamps [ev], t ∉ es.map Entry.id :=
      fun t ht hmem => hdisj hmem (List.mem_append_left _ ht)
    obtain ⟨es1, hm1, hsub⟩ := mirrors_step host s es ev hm hfresh
    apply ih (step host s ev) es1 hm1
    rw [List.nodup_append]
    refine ⟨hm1.2.2.2.2.2, hevs, ?_⟩
    intro x hx1 hx2
    rcases hsub x hx1 with h | h
    · exact hdisj h (List.mem_append_right _ hx2)
    · exact hdisj2 h hx2

theorem mirrors_load (host : Host) (saved : String) (es : List Entry)
    (hne : saved ≠ "") (hp : host.parse saved = some (.arr (es.map Entry.toJS)))
    (htext : ∀ e ∈ es, e.text ≠ "") (hids : (es.map Entry.id).Nodup) :
    (load host (some saved)).thrown = none ∧ Mirrors (load host (some saved)).state es := by
  have hcells : ∀ c ∈ mkCells 0 (es.map Entry.toJS), ∃ e : Entry, e.text ≠ "" ∧ c.val = e.toJS := by
    intro c hc
    have : c.val ∈ es.map Entry.toJS := by
      have := List.mem_map_of_mem Cell.val hc
      rwa [mkCells_val] at this
    obtain ⟨e, he, hce⟩ := List.mem_map.mp this
    exact ⟨e, htext e he, hce.symm⟩
  obtain ⟨h1, h2, h3⟩ := renderAll_entries host (mkCells 0 (es.map Entry.toJS))
    (assignParsed (some saved) (es.map Entry.toJS)) hcells
  have h2a : (assignParsed (some saved) (es.map Entry.toJS)).entriesArray =
      mkCells 0 (es.map Entry.toJS) := rfl
  have h3a : (assignParsed (some saved) (es.map Entry.toJS)).list = [] := rfl
  rw [h2a] at h2
  rw [h3a, List.nil_append] at h3
  have hload : load host (some saved) = ⟨updateEntryCount (renderAll host
      (assignParsed (some saved) (es.map Entry.toJS)) (mkCells 0 (es.map Entry.toJS))).state,
      none⟩ := by
    simp only [load, hne, if_false, hp, h1]
  rw [hload]
  refine ⟨rfl, ?_, ?_, ?_, ?_, htext, hids⟩
  · simp only [updateEntryCount, h2, mkCells_val]
  · simp only [updateEntryCount, h2, h3, List.map_map]
    exact List.map_id _
  · simp only [updateEntryCount, h3, List.map_map]
    have : (Row.content ∘ fun c => Row.mk c (entryLine c.val) Display.unset) =
        entryLine ∘ Cell.val := rfl
    rw [this, ← List.map_map, mkCells_val, List.map_map]
    apply List.map_congr_left
    intro e _
    simp [entryLine, fieldText, Entry.toJS, prop_mkEntry_text, prop_mkEntry_date, Entry.line]
  · simp only [updateEntryCount, h2, h3, List.length_map]

theorem digitChar_eq (d : Nat) (h : d < 10) : digitChar d = Nat.digitChar d := by
  interval_cases d <;> rfl

theorem natDigitsAux_eq_toDigitsCore (fuel n : Nat) (acc : List Char) :
    natDigitsAux fuel n acc = Nat.toDigitsCore 10 fuel n acc := by
  induction fuel generalizing n acc with
  | zero => rfl
  | succ fuel ih =>
    unfold natDigitsAux Nat.toDigitsCore
    by_cases hn : n < 10
    · have h0 : n / 10 = 0 := by omega
      have hm : n % 10 = n := by omega
      simp only [hn, if_true, h0, hm, digitChar_eq n hn]
    · have h0 : n / 10 ≠ 0 := by omega
      simp only [hn, if_false, h0, digitChar_eq (n % 10) (Nat.mod_lt _ (by omega)), ih]

theorem numberToString_natCast (n : Nat) : numberToString (n : Int) = toString n := by
  have h1 : intDigits (n : Int) = natDigits n := by
    unfold intDigits
    rw [if_neg (by omega)]
    simp
  show String.mk (intDigits (n : Int)) = (Nat.toDigits 10 n).asString
  rw [h1, natDigits, natDigitsAux_eq_toDigitsCore]
  rfl

theorem countText_eq (n : Nat) :
    countText n = if n = 1 then "You have 1 entry logged."
      else "You have " ++ toString n ++ " entries logged." := by
  unfold countText
  rw [numberToString_natCast]
  by_cases h : n = 1
  · subst h
    decide
  · simp only [h, if_false]
    simp [String.append_assoc]

/-- C10. Load a snapshot that encodes entries with non-empty texts and pairwise
distinct ids, then let any events happen (edits of the textarea, form submits,
confirmed and declined deletions, searches, downloads) in which the submits have
pairwise distinct timestamps, distinct from the loaded ids. In the resulting
state the rows correspond one to one and in order to the in-memory entries: the
`i`-th row belongs to the `i`-th entry and shows its `"[date] text"`, and the
counter displays the number of rows, in decimal: "You have 1 entry logged." for
one row and "You have n entries logged." for `n` rows otherwise. -/
theorem rows_mirror_entries (host : Host) (saved : String) (es : List Entry)
    (evs : List Event) (hne : saved ≠ "")
    (hp : host.parse saved = some (.arr (es.map Entry.toJS)))
    (htext : ∀ e ∈ es, e.text ≠ "")
    (hids : (es.map Entry.id ++ timestamps evs).Nodup) :
    ∃ es1 : List Entry,
      (run host (some saved) evs).entriesArray.map Cell.val = es1.map Entry.toJS ∧
      (run host (some saved) evs).list.map Row.entryObj =
        (run host (some saved) evs).entriesArray ∧
      (run host (some saved) evs).list.map Row.content = es1.map Entry.line ∧
      (run host (some saved) evs).entryCount =
        some (if (run host (some saved) evs).list.length = 1 then "You have 1 entry logged."
          else "You have " ++ toString (run host (some saved) evs).list.length ++
            " entries logged.") := by
  obtain ⟨hthrown, hm⟩ := mirrors_load host saved es hne hp htext
    (List.nodup_append.mp hids).1
  obtain ⟨es1, h1, h2, h3, h4, _, _⟩ :=
    mirrors_runEvents host evs (load host (some saved)).state es hm hids
  refine ⟨es1, ?_⟩
  unfold run
  rw [hthrown]
  exact ⟨h1, h2, h3, by rw [← countText_eq]; exact h4⟩

set_option maxRecDepth 100000 in
theorem rows_mirror_entries_witness :
    (∃ es1 : List Entry,
      (run refHost (some twoEntrySnapshot) session).entriesArray.map Cell.val =
        es1.map Entry.toJS ∧
      (run refHost (some twoEntrySnapshot) session).list.map Row.entryObj =
        (run refHost (some twoEntrySnapshot) session).entriesArray ∧
      (run refHost (some twoEntrySnapshot) session).list.map Row.content =
        es1.map Entry.line ∧
      (run refHost (some twoEntrySnapshot) session).entryCount =
        some (if (run refHost (some twoEntrySnapshot) session).list.length = 1
          then "You have 1 entry logged."
          else "You have " ++ toString (run refHost (some twoEntrySnapshot) session).list.length
            ++ " entries logged.")) ∧
    (run refHost (some twoEntrySnapshot) session).list.map Row.content =
      ["[04/11/2026] Wrote tests", "[05/11/2026] Shipped it"] ∧
    (run refHost (some twoEntrySnapshot) session).entryCount =
      some "You have 2 entries logged." ∧
    (run refHost (some twoEntrySnapshot) [.delete 0 true]).entryCount =
      some "You have 1 entry logged." :=
  ⟨rows_mirror_entries refHost twoEntrySnapshot twoEntries session (by decide) (by rfl)
    (by decide) (by decide), by decide, by decide, by decide⟩

/-! ## The reference codec: numerals -/

theorem digitValue_digitChar (d : Nat) (h : d < 10) : digitValue (digitChar d) = some d := by
  interval_cases d <;> rfl

theorem natDigitsAux_append (fuel n : Nat) (acc : List Char) :
    natDigitsAux fuel n acc = natDigitsAux fuel n [] ++ acc := by
  induction fuel generalizing n acc with
  | zero => rfl
  | succ fuel ih =>
    unfold natDigitsAux
    split
    · rfl
    · rw [ih (n / 10) (digitChar (n % 10) :: acc), ih (n / 10) [digitChar (n % 10)]]
      simp

theorem natDigits_append (n : Nat) (rest : List Char) :
    natDigits n ++ rest = natDigitsAux (n + 1) n rest := by
  rw [natDigits, natDigitsAux_append (n + 1) n rest]

theorem parseDigits_natDigitsAux (fuel n : Nat) (acc : List Char) (h : n < fuel) :
    ∃ k, ∀ a, parseDigits (natDigitsAux fuel n acc) a = parseDigits acc (a * 10 ^ k + n) := by
  induction fuel generalizing n acc with
  | zero => omega
  | succ fuel ih =>
    unfold natDigitsAux
    split
    · rename_i hn
      refine ⟨1, fun a => ?_⟩
      simp [parseDigits, digitValue_digitChar n hn]
    · rename_i hn
      obtain ⟨k, hk⟩ := ih (n / 10) (digitChar (n % 10) :: acc) (by omega)
      refine ⟨k + 1, fun a => ?_⟩
      rw [hk a]
      simp only [parseDigits, digitValue_digitChar (n % 10) (Nat.mod_lt _ (by omega))]
      congr 1
      rw [pow_succ]
      have := Nat.div_add_mod n 10
      nlinarith

theorem natDigitsAux_head (fuel n : Nat) (acc : List Char) (h : n < fuel) :
    ∃ c cs d, natDigitsAux fuel n acc = c :: cs ∧ digitValue c = some d ∧ (0 < n → d ≠ 0) := by
  induction fuel generalizing n acc with
  | zero => omega
  | succ fuel ih =>
    unfold natDigitsAux
    split
    · rename_i hn
      exact ⟨digitChar n, acc, n, rfl, digitValue_digitChar n hn, fun h0 => by omega⟩
    · rename_i hn
      obtain ⟨c, cs, d, h1, h2, h3⟩ := ih (n / 10) (digitChar (n % 10) :: acc) (by omega)
      exact ⟨c, cs, d, h1, h2, fun _ => h3 (by omega)⟩

theorem parseNatural_natDigits (n : Nat) (rest : List Char) :
    parseNatural (natDigits n ++ ',' :: rest) = some (n, ',' :: rest) := by
  rw [natDigits_append]
  obtain ⟨c, cs, d, h1, h2, h3⟩ := natDigitsAux_head (n + 1) n (',' :: rest) (by omega)
  obtain ⟨k, hk⟩ := parseDigits_natDigitsAux (n + 1) n (',' :: rest) (by omega)
  have hp := hk 0
  rw [h1] at hp ⊢
  have hcomma : parseDigits (',' :: rest) (0 * 10 ^ k + n) = (n, ',' :: rest) := by
    simp [parseDigits, digitValue]
  rw [hcomma] at hp
  simp only [parseDigits, h2, Nat.zero_mul, Nat.zero_add] at hp
  by_cases hn : n = 0
  · subst hn
    have hc : natDigitsAux (0 + 1) 0 (',' :: rest) = digitChar 0 :: ',' :: rest := rfl
    rw [hc] at h1
    obtain ⟨rfl, rfl⟩ := List.cons.inj h1
    simp [parseNatural, digitValue_digitChar, continuesNumeral]
  · have hd : d ≠ 0 := h3 (by omega)
    simp [parseNatural, h2, hd, hp, continuesNumeral]

theorem parseNumber_intDigits (n : Int) (rest : List Char) :
    parseNumber (intDigits n ++ ',' :: rest) = some (n, ',' :: rest) := by
  unfold intDigits
  split
  · rename_i hneg
    simp only [List.cons_append, parseNumber, if_true, parseNatural_natDigits]
    congr 2
    omega
  · rename_i hpos
    obtain ⟨c, cs, d, h1, h2, _⟩ :=
      natDigitsAux_head (n.natAbs + 1) n.natAbs (',' :: rest) (by omega)
    have hp := parseNatural_natDigits n.natAbs rest
    rw [natDigits_append] at hp ⊢
    rw [h1] at hp ⊢
    have hc : c ≠ '-' := by
      intro hc
      rw [hc] at h2
      simp [digitValue] at h2
    simp only [parseNumber, hc, if_false, hp]
    congr 2
    omega

theorem intDigits_head (n : Int) (rest : List Char) :
    ∃ c cs, intDigits n ++ rest = c :: cs ∧ (c = '-' ∨ ∃ d, digitValue c = some d) := by
  unfold intDigits
  split
  · exact ⟨'-', _, rfl, Or.inl rfl⟩
  · obtain ⟨c, cs, d, h1, h2, _⟩ := natDigitsAux_head (n.natAbs + 1) n.natAbs rest (by omega)
    rw [natDigits_append]
    exact ⟨c, cs, h1, Or.inr ⟨d, h2⟩⟩

/-! ## The reference codec: strings -/

theorem char_eq_of_toNat (c : Char) (n : Nat) (h : c.toNat = n) : c = Char.ofNat n := by
  rw [← h, Char.ofNat_toNat]

theorem quoteChar_control (n : Nat) (h : n < 32) :
    ∃ esc, quoteChar (Char.ofNat n) = '\\' :: esc ∧
      ∀ tail, parseEscape (esc ++ tail) = some (Char.ofNat n, tail) := by
  interval_cases n <;> exact ⟨_, rfl, fun _ => rfl⟩

theorem quoteChar_escaped (c : Char) (h : c.toNat < 32 ∨ c.toNat = 34 ∨ c.toNat = 92) :
    ∃ esc, quoteChar c = '\\' :: esc ∧ ∀ tail, parseEscape (esc ++ tail) = some (c, tail) := by
  rcases h with h | h | h
  · rw [char_eq_of_toNat c c.toNat rfl]
    exact quoteChar_control c.toNat h
  · rw [char_eq_of_toNat c 34 h]
    exact ⟨_, rfl, fun _ => rfl⟩
  · rw [char_eq_of_toNat c 92 h]
    exact ⟨_, rfl, fun _ => rfl⟩

theorem parseStringBody_backslash (fuel : Nat) (cs : List Char) :
    parseStringBody (fuel + 1) ('\\' :: cs) =
      match parseEscape cs with
      | none => none
      | some (x, rest) =>
        match parseStringBody fuel rest with
        | some (s, r) => some (x :: s, r)
        | none => none := by
  rw [parseStringBody]
  rw [if_neg (by decide), if_pos rfl]

theorem parseStringBody_quoteChar (fuel : Nat) (c : Char) (tail : List Char) :
    parseStringBody (fuel + 1) (quoteChar c ++ tail) =
      match parseStringBody fuel tail with
      | some (s, r) => some (c :: s, r)
      | none => none := by
  by_cases h : c.toNat < 32 ∨ c.toNat = 34 ∨ c.toNat = 92
  · obtain ⟨esc, h1, h2⟩ := quoteChar_escaped c h
    rw [h1, List.cons_append, parseStringBody_backslash, h2 tail]
  · simp only [not_or] at h
    obtain ⟨h32, h34, h92⟩ := h
    have hq : quoteChar c = [c] := by
      unfold quoteChar
      simp only [h34, h92, if_false]
      rw [if_neg (by omega), if_neg (by omega), if_neg (by omega), if_neg (by omega),
        if_neg (by omega), if_neg h32]
    have hc1 : c ≠ '"' := fun e => h34 (by rw [e]; rfl)
    have hc2 : c ≠ '\\' := fun e => h92 (by rw [e]; rfl)
    rw [hq, List.singleton_append, parseStringBody, if_neg hc1, if_neg hc2, if_neg h32]

theorem parseStringBody_quoted (cs rest : List Char) (fuel : Nat) (h : cs.length < fuel) :
    parseStringBody fuel (cs.flatMap quoteChar ++ '"' :: rest) = some (cs, rest) := by
  induction cs generalizing fuel with
  | nil =>
    cases fuel with
    | zero => simp at h
    | succ fuel => simp [parseStringBody]
  | cons c cs ih =>
    cases fuel with
    | zero => simp at h
    | succ fuel =>
      rw [List.flatMap_cons, List.append_assoc, parseStringBody_quoteChar,
        ih fuel (by simpa using h)]

theorem length_quoteChar (c : Char) : 1 ≤ (quoteChar c).length := by
  unfold quoteChar
  simp only
  split_ifs <;> simp

theorem length_flatMap_quoteChar (cs : List Char) :
    cs.length ≤ (cs.flatMap quoteChar).length := by
  induction cs with
  | nil => simp
  | cons c cs ih =>
    rw [List.flatMap_cons, List.length_append, List.length_cons]
    have := length_quoteChar c
    omega

theorem parseStringBody_self (cs rest : List Char) :
    parseStringBody (cs.flatMap quoteChar ++ '"' :: rest).length
      (cs.flatMap quoteChar ++ '"' :: rest) = some (cs, rest) := by
  apply parseStringBody_quoted
  have := length_flatMap_quoteChar cs
  simp only [List.length_append, List.length_cons]
  omega

theorem quoteChars_append (cs rest : List Char) :
    quoteChars cs ++ rest = '"' :: (cs.flatMap quoteChar ++ '"' :: rest) := by
  simp [quoteChars]

/-! ## The reference codec: values -/

theorem skipWs_cons (c : Char) (cs : List Char) (h : isJsonWs c = false) :
    skipWs (c :: cs) = c :: cs := by
  simp [skipWs, List.dropWhile, h]

theorem numeric_head (c : Char) (h : c = '-' ∨ ∃ d, digitValue c = some d) :
    isJsonWs c = false ∧ c ≠ '[' ∧ c ≠ '{' ∧ c ≠ '"' ∧ c ≠ 'n' ∧ c ≠ 't' ∧ c ≠ 'f' := by
  rcases h with rfl | ⟨d, hd⟩
  · decide
  · have hr : 48 ≤ c.toNat ∧ c.toNat ≤ 57 := by
      unfold digitValue at hd
      by_contra hcon
      rw [if_neg hcon] at hd
      cases hd
    have key : ∀ x : Char, (x.toNat < 48 ∨ 57 < x.toNat) → c ≠ x := by
      intro x hx e
      rw [e] at hr
      omega
    refine ⟨?_, key _ (by decide), key _ (by decide), key _ (by decide), key _ (by decide),
      key _ (by decide), key _ (by decide)⟩
    have h1 := key ' ' (by decide)
    have h2 := key '\t' (by decide)
    have h3 := key '\n' (by decide)
    have h4 := key '\r' (by decide)
    simp [isJsonWs, h1, h2, h3, h4]

theorem skipWs_colon (cs : List Char) : skipWs (':' :: cs) = ':' :: cs :=
  skipWs_cons _ _ (by decide)

theorem skipWs_comma (cs : List Char) : skipWs (',' :: cs) = ',' :: cs :=
  skipWs_cons _ _ (by decide)

theorem skipWs_quote (cs : List Char) : skipWs ('"' :: cs) = '"' :: cs :=
  skipWs_cons _ _ (by decide)

theorem skipWs_lbrace (cs : List Char) : skipWs ('{' :: cs) = '{' :: cs :=
  skipWs_cons _ _ (by decide)

theorem skipWs_rbrace (cs : List Char) : skipWs ('}' :: cs) = '}' :: cs :=
  skipWs_cons _ _ (by decide)

theorem skipWs_rbracket (cs : List Char) : skipWs (']' :: cs) = ']' :: cs :=
  skipWs_cons _ _ (by decide)

theorem parseValue_string (fuel : Nat) (v rest : List Char) :
    parseValue (fuel + 1) (quoteChars v ++ rest) = some (.str (String.mk v), rest) := by
  rw [quoteChars_append, parseValue, skipWs_quote]
  simp only [↓reduceIte, parseStringBody_self, Char.reduceEq]

theorem parseValue_number (fuel : Nat) (n : Int) (rest : List Char) :
    parseValue (fuel + 1) (intDigits n ++ ',' :: rest) = some (.num n, ',' :: rest) := by
  obtain ⟨c, cs, h1, h2⟩ := intDigits_head n (',' :: rest)
  obtain ⟨hw, hb, hc, hq, hn, ht, hf⟩ := numeric_head c h2
  have hp := parseNumber_intDigits n rest
  rw [h1] at hp ⊢
  rw [parseValue, skipWs_cons _ _ hw]
  simp only [hb, hc, hq, hn, ht, hf, ↓reduceIte, hp]

theorem parseMembers_number (fuel : Nat) (k : List Char) (n : Int) (more : List Char) :
    parseMembers (fuel + 2) (quoteChars k ++ ':' :: (intDigits n ++ ',' :: more)) =
      match parseMembers (fuel + 1) more with
      | some (ms, r) => some ((String.mk k, .num n) :: ms, r)
      | none => none := by
  rw [quoteChars_append, parseMembers, skipWs_quote]
  simp only [↓reduceIte, parseStringBody_self, skipWs_colon, parseValue_number, skipWs_comma]

theorem parseMembers_string (fuel : Nat) (k v more : List Char) :
    parseMembers (fuel + 2) (quoteChars k ++ ':' :: (quoteChars v ++ ',' :: more)) =
      match parseMembers (fuel + 1) more with
      | some (ms, r) => some ((String.mk k, .str (String.mk v)) :: ms, r)
      | none => none := by
  rw [quoteChars_append, parseMembers, skipWs_quote]
  simp only [↓reduceIte, parseStringBody_self, skipWs_colon, parseValue_string, skipWs_comma]

theorem parseMembers_last (fuel : Nat) (k v rest : List Char) :
    parseMembers (fuel + 2) (quoteChars k ++ ':' :: (quoteChars v ++ '}' :: rest)) =
      some ([(String.mk k, .str (String.mk v))], rest) := by
  rw [quoteChars_append, parseMembers, skipWs_quote]
  simp only [↓reduceIte, parseStringBody_self, skipWs_colon, parseValue_string, skipWs_rbrace,
    Char.reduceEq]

theorem stringifyChars_toJS (e : Entry) (rest : List Char) :
    stringifyChars e.toJS ++ rest =
      '{' :: (quoteChars "id".data ++ ':' :: (intDigits e.id ++ ',' ::
        (quoteChars "text".data ++ ':' :: (quoteChars e.text.data ++ ',' ::
          (quoteChars "date".data ++ ':' :: (quoteChars e.date.data ++ '}' :: rest)))))) := by
  simp [Entry.toJS, mkEntry, stringifyChars, stringifyProps]

theorem mkObject_entry (e : Entry) :
    mkObject [(String.mk "id".data, .num e.id), (String.mk "text".data, .str (String.mk e.text.data)),
      (String.mk "date".data, .str (String.mk e.date.data))] = e.toJS := by
  have h1 : arrayIndex "id" = none := by decide
  have h2 : arrayIndex "text" = none := by decide
  have h3 : arrayIndex "date" = none := by decide
  simp [mkObject, setProp, insertProp, h1, h2, h3, Entry.toJS, mkEntry]

theorem parseValue_entry (fuel : Nat) (e : Entry) (rest : List Char) :
    parseValue (fuel + 5) (stringifyChars e.toJS ++ rest) = some (e.toJS, rest) := by
  rw [stringifyChars_toJS, parseValue, skipWs_lbrace]
  simp only [Char.reduceEq, ↓reduceIte]
  rw [quoteChars_append, skipWs_quote]
  simp only [Char.reduceEq, ↓reduceIte]
  rw [← quoteChars_append, parseMembers_number (fuel + 2), parseMembers_string (fuel + 1),
    parseMembers_last fuel]
  exact congrArg (fun v => some (v, rest)) (mkObject_entry e)

theorem stringifyElems_cons_cons (x y : JSValue) (xs : List JSValue) :
    stringifyElems (x :: y :: xs) = stringifyChars x ++ ',' :: stringifyElems (y :: xs) := by
  rw [stringifyElems]

theorem stringifyElems_singleton (x : JSValue) : stringifyElems [x] = stringifyChars x := by
  rw [stringifyElems]

theorem parseElements_entries (es : List Entry) (e : Entry) (fuel : Nat) (rest : List Char) :
    parseElements (fuel + es.length + 6) (stringifyElems ((e :: es).map Entry.toJS) ++ ']' :: rest) =
      some ((e :: es).map Entry.toJS, rest) := by
  induction es generalizing e fuel with
  | nil =>
    rw [List.map_cons, List.map_nil, stringifyElems_singleton, List.length_nil, Nat.add_zero,
      parseElements, parseValue_entry]
    simp only [skipWs_rbracket, Char.reduceEq, ↓reduceIte]
  | cons e1 es ih =>
    have hf : fuel + (e1 :: es).length + 6 = (fuel + es.length + 6) + 1 := by
      simp only [List.length_cons]; omega
    have hf2 : fuel + es.length + 6 = (fuel + es.length + 1) + 5 := by omega
    rw [List.map_cons, List.map_cons, stringifyElems_cons_cons, List.append_assoc,
      List.cons_append, hf, parseElements]
    nth_rewrite 1 [hf2]
    rw [parseValue_entry]
    simp only [skipWs_comma, ↓reduceIte]
    rw [← List.map_cons, ih e1 fuel]

theorem length_stringifyElems (es : List Entry) :
    es.length ≤ (stringifyElems (es.map Entry.toJS)).length := by
  induction es with
  | nil => simp
  | cons e es ih =>
    cases es with
    | nil =>
      rw [List.map_cons, List.map_nil, stringifyElems_singleton]
      have := congrArg List.length (stringifyChars_toJS e [])
      simp only [List.append_nil, List.length_cons] at this
      simp only [List.length_singleton]
      omega
    | cons e1 es =>
      rw [List.map_cons, List.map_cons, stringifyElems_cons_cons, List.length_append,
        List.length_cons]
      rw [List.map_cons] at ih
      simp only [List.length_cons] at ih ⊢
      omega

/-- The reference parser reads back what the reference serialiser writes for a
sequence of entries. -/
theorem jsonParse_jsonStringify (es : List Entry) :
    jsonParse (jsonStringify (.arr (es.map Entry.toJS))) = some (.arr (es.map Entry.toJS)) := by
  have hlen := length_stringifyElems es
  have hs : (jsonStringify (.arr (es.map Entry.toJS))).data =
      '[' :: (stringifyElems (es.map Entry.toJS) ++ [']']) := by
    simp [jsonStringify, stringifyChars]
  unfold jsonParse
  rw [hs]
  cases es with
  | nil =>
    simp only [List.map_nil]
    rfl
  | cons e es =>
    have hfuel : 2 * ('[' :: (stringifyElems ((e :: es).map Entry.toJS) ++ [']'])).length + 2 =
        ((2 * (stringifyElems ((e :: es).map Entry.toJS)).length - es.length - 1)
          + es.length + 6) + 1 := by
      have hl2 : ('[' :: (stringifyElems ((e :: es).map Entry.toJS) ++ [']'])).length =
          (stringifyElems ((e :: es).map Entry.toJS)).length + 2 := by simp
      have hl3 : es.length + 1 ≤ (stringifyElems ((e :: es).map Entry.toJS)).length := hlen
      rw [hl2]
      omega
    rw [hfuel, parseValue]
    have hopen : ∃ tail, stringifyElems ((e :: es).map Entry.toJS) ++ [']'] = '{' :: tail := by
      cases es with
      | nil =>
        rw [List.map_cons, List.map_nil, stringifyElems_singleton, stringifyChars_toJS]
        exact ⟨_, rfl⟩
      | cons e1 es =>
        rw [List.map_cons, List.map_cons, stringifyElems_cons_cons, List.append_assoc,
          stringifyChars_toJS]
        exact ⟨_, rfl⟩
    obtain ⟨tail, htail⟩ := hopen
    have hws : skipWs ('[' :: (stringifyElems ((e :: es).map Entry.toJS) ++ [']'])) =
        '[' :: (stringifyElems ((e :: es).map Entry.toJS) ++ [']']) :=
      skipWs_cons _ _ (by decide)
    rw [hws]
    simp only [↓reduceIte]
    rw [htail, skipWs_lbrace]
    simp only [Char.reduceEq, ↓reduceIte]
    rw [← htail, parseElements_entries]
    simp [skipWs]

/-! ## Saving and loading again -/

theorem renderAll_thrown_of_entries (host : Host) (cs : List Cell) (s : State)
    (h : ∀ c ∈ cs, ∃ e : Entry, c.val = e.toJS) : (renderAll host s cs).thrown = none := by
  induction cs generalizing s with
  | nil => rfl
  | cons c cs ih =>
    obtain ⟨e, hc⟩ := h c (List.mem_cons_self _ _)
    have hadd : ∃ s1, addEntry host s c true = .ok s1 := by
      unfold addEntry
      rw [hc, formatEntry_toJS]
      split
      · exact ⟨_, rfl⟩
      · exact ⟨_, rfl⟩
    obtain ⟨s1, hs1⟩ := hadd
    unfold renderAll
    rw [hs1]
    exact ih s1 (fun x hx => h x (List.mem_cons_of_mem _ hx))

theorem load_of_roundtrip (host : Host) (saved : String) (es : List Entry) (hne : saved ≠ "")
    (hp : host.parse saved = some (.arr (es.map Entry.toJS))) :
    (load host (some saved)).thrown = none ∧
    (load host (some saved)).state.entriesArray.map Cell.val = es.map Entry.toJS := by
  have hcells : ∀ c ∈ mkCells 0 (es.map Entry.toJS), ∃ e : Entry, c.val = e.toJS := by
    intro c hc
    have hm : c.val ∈ es.map Entry.toJS := by
      have := List.mem_map_of_mem Cell.val hc
      rwa [mkCells_val] at this
    obtain ⟨e, _, hce⟩ := List.mem_map.mp hm
    exact ⟨e, hce.symm⟩
  have hthrown := renderAll_thrown_of_entries host (mkCells 0 (es.map Entry.toJS))
    (assignParsed (some saved) (es.map Entry.toJS)) hcells
  obtain ⟨h1, _, _⟩ := renderAll_fields host (mkCells 0 (es.map Entry.toJS))
    (assignParsed (some saved) (es.map Entry.toJS))
  have h1a : (assignParsed (some saved) (es.map Entry.toJS)).entriesArray =
      mkCells 0 (es.map Entry.toJS) := rfl
  rw [h1a] at h1
  have hload : load host (some saved) = ⟨updateEntryCount (renderAll host
      (assignParsed (some saved) (es.map Entry.toJS)) (mkCells 0 (es.map Entry.toJS))).state,
      none⟩ := by
    simp only [load, hne, if_false, hp, hthrown]
  rw [hload]
  refine ⟨rfl, ?_⟩
  simp only [updateEntryCount, h1, mkCells_val]

theorem jsonStringify_ne_empty (vs : List JSValue) : jsonStringify (.arr vs) ≠ "" := by
  intro h
  have := congrArg String.data h
  simp [jsonStringify, stringifyChars] at this

/-- C5. Round trip: for every in-memory sequence of entries (integer id, string
text, string date), writing it with `saveEntriesToStorage` and then running the
load step in a fresh context on the stored value raises no error and yields an
in-memory sequence with the same values, in the same order. -/
theorem save_load_roundtrip (s : State) (es : List Entry)
    (h : s.entriesArray.map Cell.val = es.map Entry.toJS) :
    (load refHost (saveEntriesToStorage refHost s).storage).thrown = none ∧
    (load refHost (saveEntriesToStorage refHost s).storage).state.entriesArray.map Cell.val =
      s.entriesArray.map Cell.val := by
  have hst : (saveEntriesToStorage refHost s).storage =
      some (jsonStringify (.arr (es.map Entry.toJS))) := by
    simp only [saveEntriesToStorage, h]
    rfl
  rw [hst, h]
  exact load_of_roundtrip refHost _ es (jsonStringify_ne_empty _) (jsonParse_jsonStringify es)

theorem save_load_roundtrip_witness :
    (load refHost (saveEntriesToStorage refHost escapedEntries).storage).thrown = none ∧
    (load refHost
      (saveEntriesToStorage refHost escapedEntries).storage).state.entriesArray.map Cell.val =
      escapedEntries.entriesArray.map Cell.val :=
  save_load_roundtrip escapedEntries
    [⟨1700000000000, "say \"hi\"\\\n\x01 done", "04/11/2026"⟩, ⟨-5, "", ""⟩,
     ⟨0, "naïve café ✓", "05/11/2026"⟩] rfl

set_option maxRecDepth 100000 in
theorem escapedEntries_storage :
    (saveEntriesToStorage refHost escapedEntries).storage =
      some ("[\x7b\"id\":1700000000000,\"text\":\"say \\\"hi\\\"\\\\\\n\\u0001 done\"," ++
        "\"date\":\"04/11/2026\"\x7d,\x7b\"id\":-5,\"text\":\"\",\"date\":\"\"\x7d," ++
        "\x7b\"id\":0,\"text\":\"naïve café ✓\",\"date\":\"05/11/2026\"\x7d]") := by
  decide

/-! ## The reference parser never runs out of fuel -/

theorem skipWs_length (cs : List Char) : (skipWs cs).length ≤ cs.length :=
  (List.dropWhile_sublist _).length_le

theorem length_of_skipWs (cs rest : List Char) (c : Char) (h : skipWs cs = c :: rest) :
    rest.length + 1 ≤ cs.length := by
  have := skipWs_length cs
  rw [h] at this
  simpa using this

theorem parseDigits_length (cs : List Char) (acc : Nat) :
    (parseDigits cs acc).2.length ≤ cs.length := by
  induction cs generalizing acc with
  | nil => simp [parseDigits]
  | cons c cs ih =>
    unfold parseDigits
    split
    · simp only [List.length_cons]
      exact Nat.le_succ_of_le (ih _)
    · simp

theorem parseNatural_length (cs r : List Char) (n : Nat) (h : parseNatural cs = some (n, r)) :
    r.length < cs.length := by
  cases cs with
  | nil => simp [parseNatural] at h
  | cons c cs =>
    simp only [parseNatural] at h
    cases hd : digitValue c with
    | none => simp [hd] at h
    | some d =>
      simp only [hd] at h
      by_cases h0 : d = 0
      · simp only [h0, if_true] at h
        by_cases hk : continuesNumeral cs = true
        · simp [hk] at h
        · simp only [hk, if_false] at h
          have : r = cs := by
            have := congrArg Prod.snd (Option.some.inj h)
            simpa using this.symm
          subst this
          simp
      · simp only [h0, if_false] at h
        by_cases hk : continuesNumeral (parseDigits cs d).2 = true
        · simp [hk] at h
        · simp only [hk, if_false] at h
          have hr := Option.some.inj h
          have hl := parseDigits_length cs d
          rw [hr] at hl
          simp only [List.length_cons]
          exact Nat.lt_succ_of_le hl

theorem parseNumber_length (cs r : List Char) (n : Int) (h : parseNumber cs = some (n, r)) :
    r.length < cs.length := by
  cases cs with
  | nil => simp [parseNumber] at h
  | cons c cs =>
    simp only [parseNumber] at h
    by_cases hc : c = '-'
    · simp only [hc, if_true] at h
      cases hp : parseNatural cs with
      | none => simp [hp] at h
      | some p =>
        obtain ⟨m, rest⟩ := p
        simp only [hp] at h
        have hr : r = rest := by
          have := congrArg Prod.snd (Option.some.inj h)
          simpa using this.symm
        have := parseNatural_length cs rest m hp
        subst hr
        simp only [List.length_cons]
        omega
    · simp only [hc, if_false] at h
      cases hp : parseNatural (c :: cs) with
      | none => simp [hp] at h
      | some p =>
        obtain ⟨m, rest⟩ := p
        simp only [hp] at h
        have hr : r = rest := by
          have := congrArg Prod.snd (Option.some.inj h)
          simpa using this.symm
        subst hr
        exact parseNatural_length (c :: cs) r m hp

theorem expectWord_length (word : List Char) (v w : JSValue) (cs r : List Char)
    (hw : 0 < word.length) (h : expectWord word v cs = some (w, r)) : r.length < cs.length := by
  unfold expectWord at h
  split at h
  · rename_i hp
    have hr : r = cs.drop word.length := by
      have := congrArg Prod.snd (Option.some.inj h)
      simpa using this.symm
    have hle : word.length ≤ cs.length := (List.isPrefixOf_iff_prefix.mp hp).length_le
    rw [hr, List.length_drop]
    omega
  · cases h

theorem parseUnicodeEscape_length (cs rest : List Char) (x : Char)
    (h : parseUnicodeEscape cs = some (x, rest)) : rest.length < cs.length := by
  unfold parseUnicodeEscape at h
  split at h
  · split at h
    · cases h
    · split at h
      · split at h
        · split at h
          · cases h
          · split at h
            · simp only [Option.some.injEq, Prod.mk.injEq] at h
              obtain ⟨_, rfl⟩ := h
              simp only [List.length_cons]
              omega
            · cases h
        · cases h
      · split at h
        · cases h
        · simp only [Option.some.injEq, Prod.mk.injEq] at h
          obtain ⟨_, rfl⟩ := h
          simp only [List.length_cons]
          omega
  · cases h

theorem parseEscape_length (cs rest : List Char) (x : Char)
    (h : parseEscape cs = some (x, rest)) : rest.length < cs.length := by
  cases cs with
  | nil => simp [parseEscape] at h
  | cons e tail =>
    simp only [parseEscape] at h
    split at h
    · have := parseUnicodeEscape_length tail rest x h
      simp only [List.length_cons]
      omega
    · have hr : rest = tail := by
        repeat' split at h
        all_goals first
          | (simp only [Option.some.injEq, Prod.mk.injEq] at h; exact h.2.symm)
          | cases h
      subst hr
      simp

theorem parseStringBody_length (fuel : Nat) (cs s r : List Char)
    (h : parseStringBody fuel cs = some (s, r)) : r.length < cs.length := by
  induction fuel generalizing cs s r with
  | zero => simp [parseStringBody] at h
  | succ fuel ih =>
    cases cs with
    | nil => simp [parseStringBody] at h
    | cons c cs =>
      simp only [parseStringBody] at h
      split at h
      · simp only [Option.some.injEq, Prod.mk.injEq] at h
        obtain ⟨_, rfl⟩ := h
        simp
      · split at h
        · cases he : parseEscape cs with
          | none => simp [he] at h
          | some p =>
            obtain ⟨x, rest⟩ := p
            simp only [he] at h
            cases hb : parseStringBody fuel rest with
            | none => simp [hb] at h
            | some q =>
              obtain ⟨s1, r1⟩ := q
              simp only [hb, Option.some.injEq, Prod.mk.injEq] at h
              obtain ⟨_, rfl⟩ := h
              have h1 := parseEscape_length cs rest x he
              have h2 := ih rest s1 r1 hb
              simp only [List.length_cons]
              omega
        · split at h
          · cases h
          · cases hb : parseStringBody fuel cs with
            | none => simp [hb] at h
            | some q =>
              obtain ⟨s1, r1⟩ := q
              simp only [hb, Option.some.injEq, Prod.mk.injEq] at h
              obtain ⟨_, rfl⟩ := h
              have h2 := ih cs s1 r1 hb
              simp only [List.length_cons]
              omega

theorem parse_length (fuel : Nat) :
    (∀ cs v r, parseValue fuel cs = some (v, r) → r.length < cs.length) ∧
    (∀ cs vs r, parseElements fuel cs = some (vs, r) → r.length < cs.length) ∧
    (∀ cs ms r, parseMembers fuel cs = some (ms, r) → r.length < cs.length) := by
  induction fuel with
  | zero =>
    refine ⟨?_, ?_, ?_⟩ <;> intro cs v r h
    · simp [parseValue] at h
    · simp [parseElements] at h
    · simp [parseMembers] at h
  | succ fuel ih =>
    obtain ⟨ihV, ihE, ihM⟩ := ih
    refine ⟨?_, ?_, ?_⟩
    · intro cs v r h
      rw [parseValue] at h
      cases hws : skipWs cs with
      | nil => simp [hws] at h
      | cons c rest =>
        have hlen := length_of_skipWs cs rest c hws
        simp only [hws] at h
        split at h
        · cases hws2 : skipWs rest with
          | nil => simp [hws2] at h
          | cons d rest2 =>
            have hlen2 := length_of_skipWs rest rest2 d hws2
            simp only [hws2] at h
            split at h
            · simp only [Option.some.injEq, Prod.mk.injEq] at h
              obtain ⟨_, rfl⟩ := h
              omega
            · cases hp : parseElements fuel (d :: rest2) with
              | none => simp [hp] at h
              | some p =>
                obtain ⟨xs, r1⟩ := p
                simp only [hp, Option.some.injEq, Prod.mk.injEq] at h
                obtain ⟨_, rfl⟩ := h
                have := ihE _ _ _ hp
                simp only [List.length_cons] at this
                omega
        · split at h
          · cases hws2 : skipWs rest with
            | nil => simp [hws2] at h
            | cons d rest2 =>
              have hlen2 := length_of_skipWs rest rest2 d hws2
              simp only [hws2] at h
              split at h
              · simp only [Option.some.injEq, Prod.mk.injEq] at h
                obtain ⟨_, rfl⟩ := h
                omega
              · cases hp : parseMembers fuel (d :: rest2) with
                | none => simp [hp] at h
                | some p =>
                  obtain ⟨ms, r1⟩ := p
                  simp only [hp, Option.some.injEq, Prod.mk.injEq] at h
                  obtain ⟨_, rfl⟩ := h
                  have := ihM _ _ _ hp
                  simp only [List.length_cons] at this
                  omega
          · split at h
            · cases hp : parseStringBody rest.length rest with
              | none => simp [hp] at h
              | some p =>
                obtain ⟨s1, r1⟩ := p
                simp only [hp, Option.some.injEq, Prod.mk.injEq] at h
                obtain ⟨_, rfl⟩ := h
                have := parseStringBody_length _ _ _ _ hp
                omega
            · split at h
              · have := expectWord_length _ _ _ _ _ (by decide) h
                simp only [List.length_cons] at this
                omega
              · split at h
                · have := expectWord_length _ _ _ _ _ (by decide) h
                  simp only [List.length_cons] at this
                  omega
                · split at h
                  · have := expectWord_length _ _ _ _ _ (by decide) h
                    simp only [List.length_cons] at this
                    omega
                  · cases hp : parseNumber (c :: rest) with
                    | none => simp [hp] at h
                    | some p =>
                      obtain ⟨n, r1⟩ := p
                      simp only [hp, Option.some.injEq, Prod.mk.injEq] at h
                      obtain ⟨_, rfl⟩ := h
                      have := parseNumber_length _ _ _ hp
                      simp only [List.length_cons] at this
                      omega
    · intro cs vs r h
      rw [parseElements] at h
      cases hp : parseValue fuel cs with
      | none => simp [hp] at h
      | some p =>
        obtain ⟨v, rest⟩ := p
        have hv := ihV _ _ _ hp
        simp only [hp] at h
        cases hws : skipWs rest with
        | nil => simp [hws] at h
        | cons c rest2 =>
          have hlen := length_of_skipWs rest rest2 c hws
          simp only [hws] at h
          split at h
          · cases hp2 : parseElements fuel rest2 with
            | none => simp [hp2] at h
            | some q =>
              obtain ⟨vs1, r1⟩ := q
              simp only [hp2, Option.some.injEq, Prod.mk.injEq] at h
              obtain ⟨_, rfl⟩ := h
              have := ihE _ _ _ hp2
              omega
          · split at h
            · simp only [Option.some.injEq, Prod.mk.injEq] at h
              obtain ⟨_, rfl⟩ := h
              omega
            · cases h
    · intro cs ms r h
      rw [parseMembers] at h
      cases hws : skipWs cs with
      | nil => simp [hws] at h
      | cons q rest =>
        have hlen := length_of_skipWs cs rest q hws
        simp only [hws] at h
        split at h
        · cases hk : parseStringBody rest.length rest with
          | none => simp [hk] at h
          | some p =>
            obtain ⟨k, rest1⟩ := p
            have hk1 := parseStringBody_length _ _ _ _ hk
            simp only [hk] at h
            cases hws1 : skipWs rest1 with
            | nil => simp [hws1] at h
            | cons colon rest2 =>
              have hlen1 := length_of_skipWs rest1 rest2 colon hws1
              simp only [hws1] at h
              split at h
              · cases hv : parseValue fuel rest2 with
                | none => simp [hv] at h
                | some p =>
                  obtain ⟨v, rest3⟩ := p
                  have hv1 := ihV _ _ _ hv
                  simp only [hv] at h
                  cases hws3 : skipWs rest3 with
                  | nil => simp [hws3] at h
                  | cons c rest4 =>
                    have hlen3 := length_of_skipWs rest3 rest4 c hws3
                    simp only [hws3] at h
                    split at h
                    · cases hm : parseMembers fuel rest4 with
                      | none => simp [hm] at h
                      | some p =>
                        obtain ⟨ms1, r1⟩ := p
                        simp only [hm, Option.some.injEq, Prod.mk.injEq] at h
                        obtain ⟨_, rfl⟩ := h
                        have := ihM _ _ _ hm
                        omega
                    · split at h
                      · simp only [Option.some.injEq, Prod.mk.injEq] at h
                        obtain ⟨_, rfl⟩ := h
                        omega
                      · cases h
              · cases h
        · cases h

theorem parse_fuel_succ (fuel : Nat) :
    (∀ cs, 2 * cs.length + 1 ≤ fuel → parseValue (fuel + 1) cs = parseValue fuel cs) ∧
    (∀ cs, 2 * cs.length + 2 ≤ fuel → parseElements (fuel + 1) cs = parseElements fuel cs) ∧
    (∀ cs, 2 * cs.length + 2 ≤ fuel → parseMembers (fuel + 1) cs = parseMembers fuel cs) := by
  induction fuel with
  | zero =>
    refine ⟨?_, ?_, ?_⟩ <;> intro cs h <;> omega
  | succ fuel ih =>
    obtain ⟨ihV, ihE, ihM⟩ := ih
    refine ⟨?_, ?_, ?_⟩
    · intro cs hf
      rw [parseValue, parseValue]
      cases hws : skipWs cs with
      | nil => rfl
      | cons c rest =>
        have hlen := length_of_skipWs cs rest c hws
        simp only
        by_cases hb : c = '['
        · simp only [hb, if_true]
          cases hws2 : skipWs rest with
          | nil => rfl
          | cons d rest2 =>
            have hlen2 := length_of_skipWs rest rest2 d hws2
            simp only
            rw [ihE (d :: rest2) (by simp only [List.length_cons]; omega)]
        · simp only [hb, if_false]
          by_cases hc : c = '{'
          · simp only [hc, if_true]
            cases hws2 : skipWs rest with
            | nil => rfl
            | cons d rest2 =>
              have hlen2 := length_of_skipWs rest rest2 d hws2
              simp only
              rw [ihM (d :: rest2) (by simp only [List.length_cons]; omega)]
          · simp only [hc, if_false]
    · intro cs hf
      rw [parseElements, parseElements, ihV cs (by omega)]
      cases hp : parseValue fuel cs with
      | none => rfl
      | some p =>
        obtain ⟨v, rest⟩ := p
        have hv := (parse_length fuel).1 _ _ _ hp
        simp only
        cases hws : skipWs rest with
        | nil => rfl
        | cons c rest2 =>
          have hlen := length_of_skipWs rest rest2 c hws
          simp only
          rw [ihE rest2 (by omega)]
    · intro cs hf
      rw [parseMembers, parseMembers]
      cases hws : skipWs cs with
      | nil => rfl
      | cons q rest =>
        have hlen := length_of_skipWs cs rest q hws
        simp only
        by_cases hq : q = '"'
        · simp only [hq, if_true]
          cases hk : parseStringBody rest.length rest with
          | none => rfl
          | some p =>
            obtain ⟨k, rest1⟩ := p
            have hk1 := parseStringBody_length _ _ _ _ hk
            simp only
            cases hws1 : skipWs rest1 with
            | nil => rfl
            | cons colon rest2 =>
              have hlen1 := length_of_skipWs rest1 rest2 colon hws1
              simp only
              by_cases hcol : colon = ':'
              · simp only [hcol, if_true]
                rw [ihV rest2 (by omega)]
                cases hv : parseValue fuel rest2 with
                | none => rfl
                | some p =>
                  obtain ⟨v, rest3⟩ := p
                  have hv1 := (parse_length fuel).1 _ _ _ hv
                  simp only
                  cases hws3 : skipWs rest3 with
                  | nil => rfl
                  | cons c rest4 =>
                    have hlen3 := length_of_skipWs rest3 rest4 c hws3
                    simp only
                    rw [ihM rest4 (by omega)]
              · simp only [hcol, if_false]
        · simp only [hq, if_false]

theorem parseValue_fuel_add (cs : List Char) (extra : Nat) :
    parseValue (2 * cs.length + 2 + extra) cs = parseValue (2 * cs.length + 2) cs := by
  induction extra with
  | zero => rfl
  | succ extra ih =>
    rw [← ih, ← Nat.add_assoc]
    exact (parse_fuel_succ _).1 cs (by omega)

/-- More fuel never changes the answer of the reference parser: the fuel
`jsonParse` passes is never used up. -/
theorem jsonParse_fuel_adequate (s : String) (fuel : Nat) (h : 2 * s.data.length + 2 ≤ fuel) :
    parseValue fuel s.data = parseValue (2 * s.data.length + 2) s.data := by
  obtain ⟨extra, rfl⟩ := Nat.exists_eq_add_of_le h
  exact parseValue_fuel_add s.data extra

theorem parseStringBody_fuel_succ (fuel : Nat) (cs : List Char) (h : cs.length ≤ fuel) :
    parseStringBody (fuel + 1) cs = parseStringBody fuel cs := by
  induction fuel generalizing cs with
  | zero =>
    have : cs = [] := List.length_eq_zero.mp (by omega)
    subst this
    rfl
  | succ fuel ih =>
    cases cs with
    | nil => rfl
    | cons c cs =>
      simp only [List.length_cons] at h
      rw [parseStringBody, parseStringBody]
      by_cases hq : c = '"'
      · simp only [hq, if_true]
      · simp only [hq, if_false]
        by_cases hb : c = '\\'
        · simp only [hb, if_true]
          cases he : parseEscape cs with
          | none => rfl
          | some p =>
            obtain ⟨x, rest⟩ := p
            have := parseEscape_length cs rest x he
            simp only
            rw [ih rest (by omega)]
        · simp only [hb, if_false]
          rw [ih cs (by omega)]

/-- More fuel than the length of the input never changes what the string
reader answers. -/
theorem parseStringBody_fuel_adequate (cs : List Char) (extra : Nat) :
    parseStringBody (cs.length + extra) cs = parseStringBody cs.length cs := by
  induction extra with
  | zero => rfl
  | succ extra ih =>
    rw [← ih, ← Nat.add_assoc]
    exact parseStringBody_fuel_succ _ cs (by omega)

/-! ## Export on a page that finished loading -/

theorem formats_load (host : Host) (storage : Option String)
    (h : (load host storage).thrown = none) :
    ∀ c ∈ (load host storage).state.entriesArray,
      lacksText c.val = true ∨ ∃ line, formatEntry c.val = .ok line := by
  cases storage with
  | none => intro c hc; simp [load, init] at hc
  | some saved =>
    by_cases hne : saved = ""
    · intro c hc; simp [load, hne, init] at hc
    · cases hp : host.parse saved with
      | none => simp [load, hne, hp] at h
      | some v =>
        cases v with
        | arr parsed =>
          have h1 := (renderAll_fields host (mkCells 0 parsed)
            (assignParsed (some saved) parsed)).1
          have h1a : (assignParsed (some saved) parsed).entriesArray = mkCells 0 parsed := rfl
          rw [h1a] at h1
          cases ht : (renderAll host (assignParsed (some saved) parsed)
              (mkCells 0 parsed)).thrown with
          | some e => simp [load, hne, hp, ht] at h
          | none =>
            have hload : (load host (some saved)).state.entriesArray = mkCells 0 parsed := by
              simp only [load, hne, if_false, hp, ht, updateEntryCount, h1]
            rw [hload]
            exact renderAll_formats host _ _ ht
        | null => intro c hc; simp [load, hne, hp, updateEntryCount, init] at hc
        | bool b => intro c hc; simp [load, hne, hp, updateEntryCount, init] at hc
        | num n => intro c hc; simp [load, hne, hp, updateEntryCount, init] at hc
        | str t => intro c hc; simp [load, hne, hp, updateEntryCount, init] at hc
        | obj ps => intro c hc; simp [load, hne, hp, updateEntryCount, init] at hc

theorem formats_step (host : Host) (s : State) (ev : Event)
    (h : ∀ c ∈ s.entriesArray, lacksText c.val = true ∨ ∃ line, formatEntry c.val = .ok line) :
    ∀ c ∈ (step host s ev).entriesArray,
      lacksText c.val = true ∨ ∃ line, formatEntry c.val = .ok line := by
  cases ev with
  | input value => exact h
  | download => exact h
  | search value => exact h
  | submit now today =>
    by_cases ht : trim s.textarea = ""
    · simp only [step, handle, submitHandler_of_eq host s now today ht]
      exact h
    · simp only [step, handle, submitHandler_of_ne host s now today ht]
      intro c hc
      rcases List.mem_append.mp hc with hc | hc
      · exact h c hc
      · rw [List.mem_singleton.mp hc]
        exact Or.inr ⟨_, formatEntry_mkEntry _ _ _⟩
  | delete i confirmDelete =>
    simp only [step, handle, deleteHandler]
    cases hrow : s.list[i]? with
    | none => exact h
    | some li =>
      cases confirmDelete with
      | false => exact h
      | true =>
        simp only [Bool.not_true, Bool.false_eq_true, if_false]
        cases hf : filterIds li.entryObj s.entriesArray with
        | error e => exact h
        | ok kept =>
          intro c hc
          exact h c (mem_of_filterIds _ _ _ hf c hc)

theorem formats_runEvents (host : Host) (evs : List Event) (s : State)
    (h : ∀ c ∈ s.entriesArray, lacksText c.val = true ∨ ∃ line, formatEntry c.val = .ok line) :
    ∀ c ∈ (runEvents host s evs).entriesArray,
      lacksText c.val = true ∨ ∃ line, formatEntry c.val = .ok line := by
  induction evs generalizing s with
  | nil => exact h
  | cons ev evs ih => exact ih (step host s ev) (formats_step host s ev h)

/-- C6. On a page that finished loading (so that the download button has its
listener), whatever the stored record was and whatever events happened: with an
empty in-memory sequence the download action answers with the notice "No
entries to download." and produces no file; with a non-empty sequence it
produces the file `dev-journal.txt` of type `text/plain` whose content is
exactly the strings `"[date] text"` of the entries that have both a text and a
date, in sequence order, separated by single line feeds, with nothing before,
after or in between. -/
theorem export_text (host : Host) (storage : Option String) (evs : List Event)
    (hlive : (load host storage).thrown = none) :
    ((run host storage evs).entriesArray = [] →
      downloadHandler (run host storage evs) = .alert "No entries to download.") ∧
    ((run host storage evs).entriesArray ≠ [] →
      ∃ pieces : List String,
        downloadHandler (run host storage evs) =
          .file "dev-journal.txt" "text/plain"
            (String.mk (List.intercalate ['\n'] (pieces.map String.data))) ∧
        List.Forall₂ IsEntryLine
          (((run host storage evs).entriesArray.map Cell.val).filter
            (fun v => !lacksField v "text" && !lacksField v "date")) pieces) := by
  have hrun : run host storage evs = runEvents host (load host storage).state evs := by
    simp [run, hlive]
  have hfmt := formats_runEvents host evs _ (formats_load host storage hlive)
  rw [← hrun] at hfmt
  generalize run host storage evs = s at hfmt ⊢
  refine ⟨fun he => by simp [downloadHandler, he], fun hne => ?_⟩
  have hfilter : (s.entriesArray.map Cell.val).filter
      (fun v => !lacksField v "text" && !lacksField v "date") =
      (s.entriesArray.map Cell.val).filter exportable := by
    congr 1
    funext v
    exact (exportable_eq_lacksField v).symm
  have hall : ∀ v ∈ (s.entriesArray.map Cell.val).filter exportable,
      ∃ line, formatEntry v = .ok line := by
    intro v hv
    obtain ⟨hmem, hex⟩ := List.mem_filter.mp hv
    obtain ⟨c, hc, rfl⟩ := List.mem_map.mp hmem
    rcases hfmt c hc with hl | hl
    · exfalso
      unfold exportable at hex
      unfold lacksText at hl
      simp only [Bool.and_eq_true] at hex
      simp [hex.1.1, hex.1.2] at hl
    · exact hl
  obtain ⟨pieces, hp, hf⟩ := exportLines_of_formats _ hall
  have hlen : s.entriesArray.length ≠ 0 := fun h0 => hne (List.length_eq_zero.mp h0)
  refine ⟨pieces, ?_, hfilter ▸ hf⟩
  unfold downloadHandler
  rw [if_neg hlen, hp]
  simp only
  rw [← joinWith_data]

set_option maxRecDepth 100000 in
theorem export_text_witness :
    (∃ pieces : List String,
      downloadHandler (run refHost (some mixedSnapshot) [.search "bug"]) =
        .file "dev-journal.txt" "text/plain"
          (String.mk (List.intercalate ['\n'] (pieces.map String.data))) ∧
      List.Forall₂ IsEntryLine
        (((run refHost (some mixedSnapshot) [.search "bug"]).entriesArray.map Cell.val).filter
          (fun v => !lacksField v "text" && !lacksField v "date")) pieces) ∧
    downloadHandler (run refHost (some mixedSnapshot) [.search "bug"]) =
      .file "dev-journal.txt" "text/plain" "[true] 5\n[04/11/2026] Fixed the bug" ∧
    downloadHandler (run refHost (some helloSnapshot) []) =
      .file "dev-journal.txt" "text/plain" "[1/1/2024] hello" ∧
    downloadHandler (run refHost none []) = .alert "No entries to download." :=
  ⟨(export_text refHost (some mixedSnapshot) [.search "bug"] (by decide)).2
      (fun h => absurd (congrArg List.length h) (by decide)),
   by decide, by decide, (export_text refHost none [] (by decide)).1 rfl⟩

end Devlog
